import Mathlib

/-!
# filtered_string_view

A shallow embedding of `src/src/filtered_string_view.cpp` (namespace `fsv`).

Memory model.  Memory is a finite array of characters addressed from 0; reading
past its end gives NUL, so that every C string is terminated.  A `const char*`
is `Option Nat` (`none` is `nullptr`), a `const char&` is the address of the
character together with the character stored there.  Memory is never written by
the view, so it is passed around as a read-only argument `m`.

Exceptions are results of type `Except Err`.  A `std::function` is a function
that may throw; the empty `std::function` is the one that throws
`std::bad_function_call` whenever it is invoked.

`std::size_t` values are natural numbers.  Counters and offsets that are bounded
by the length of memory are kept exact; the two places where the source can wrap
around (`pos + *count` in `substr`, `--raw_pos_` in `operator--`) are reduced
modulo `2 ^ 64`.
-/

namespace fsv

/-! ## Data model -/

/-- Exceptions thrown by the operations of the view. -/
inductive Err where
  | out_of_range
  | domain_error
  | bad_function_call
deriving DecidableEq, Repr

deriving instance DecidableEq for Except

/-- Memory: the characters stored at addresses `0, 1, 2, ...`. -/
abbrev Mem := List Char

/-- The terminating character of a C string. -/
def NUL : Char := Char.ofNat 0

/-- Read the character at address `a`; addresses past the end of memory read NUL. -/
def load (m : Mem) (a : Nat) : Char := m.getD a NUL

/-- A `const char&`: where the character lives and what is stored there. -/
structure CharRef where
  addr : Nat
  val : Char
deriving DecidableEq, Repr

/-- The type `fsv::filter`, that is `std::function<bool(const char&)>`. -/
abbrev filter := CharRef → Except Err Bool

/-- The static member `filtered_string_view::default_predicate`. -/
def default_predicate : filter := fun _ => .ok true

/-- The empty `std::function<bool(const char&)>{}`: invoking it throws. -/
def empty_function : filter := fun _ => .error .bad_function_call

/-- The value `2 ^ 64`, one more than the largest `std::size_t`. -/
def SIZE_MOD : Nat := 2 ^ 64

/-- The private members of `class filtered_string_view`. -/
structure filtered_string_view where
  ptr_ : Option Nat
  len_ : Nat
  pred_ : filter

namespace filtered_string_view

/-- The loop of `count_filtered`: `for (p = ptr_; *p; ++p) if (pred_(*p)) ++cnt;`.
The first argument holds the memory cells from address `p` onwards. -/
def count_filtered_loop (pred : filter) : List Char → Nat → Nat → Except Err Nat
  | [], _, cnt => .ok cnt
  | c :: rest, p, cnt =>
    if c = NUL then .ok cnt
    else
      match pred ⟨p, c⟩ with
      | .error e => .error e
      | .ok b => count_filtered_loop pred rest (p + 1) (if b then cnt + 1 else cnt)

/-- The helper `filtered_string_view::count_filtered`. -/
def count_filtered (m : Mem) (self : filtered_string_view) : Except Err Nat :=
  match self.ptr_ with
  | none => .ok 0
  | some a => count_filtered_loop self.pred_ (m.drop a) a 0

/-- The default constructor. -/
def ctor_default : filtered_string_view := ⟨none, 0, default_predicate⟩

/-- The constructor `filtered_string_view(const char* s, filter pred)`; the overload taking
a `const std::string&` is the same constructor applied to `str.data()`. -/
def ctor (m : Mem) (s : Option Nat) (pred : filter) : Except Err filtered_string_view :=
  match count_filtered m ⟨s, 0, pred⟩ with
  | .error e => .error e
  | .ok n => .ok ⟨s, n, pred⟩

/-- The member `size()`. -/
def size (self : filtered_string_view) : Nat := self.len_

/-- The member `empty()`. -/
def empty (self : filtered_string_view) : Bool := decide (self.len_ = 0)

/-- The member `data()`. -/
def data (self : filtered_string_view) : Option Nat := self.ptr_

/-- The member `predicate()`. -/
def predicate (self : filtered_string_view) : filter := self.pred_

/-- The loop of `filtered_index_to_raw`, over the offset `i` from the base address `a`;
the list argument holds the memory cells from address `a + i` onwards. -/
def filtered_index_to_raw_loop (pred : filter) (a idx : Nat) :
    List Char → Nat → Nat → Except Err Nat
  | [], _, _ => .error .out_of_range
  | c :: rest, i, seen =>
    if c = NUL then .error .out_of_range
    else
      match pred ⟨a + i, c⟩ with
      | .error e => .error e
      | .ok true =>
        if seen = idx then .ok i
        else filtered_index_to_raw_loop pred a idx rest (i + 1) (seen + 1)
      | .ok false => filtered_index_to_raw_loop pred a idx rest (i + 1) seen

/-- The helper `filtered_string_view::filtered_index_to_raw`. -/
def filtered_index_to_raw (m : Mem) (self : filtered_string_view) (idx : Nat) :
    Except Err Nat :=
  match self.ptr_ with
  | none => .error .out_of_range
  | some a => filtered_index_to_raw_loop self.pred_ a idx (m.drop a) 0 0

/-- The member `operator[]`: `ptr_[filtered_index_to_raw(idx)]`. -/
def index (m : Mem) (self : filtered_string_view) (idx : Nat) : Except Err Char :=
  match filtered_index_to_raw m self idx with
  | .error e => .error e
  | .ok r =>
    match self.ptr_ with
    | none => .error .out_of_range
    | some a => .ok (load m (a + r))

/-- The member `at`. -/
def «at» (m : Mem) (self : filtered_string_view) (idx : Nat) : Except Err Char :=
  if idx ≥ self.len_ then .error .domain_error
  else index m self idx

/-- The loop of `operator std::string`: `for (p = ptr_; p && *p; ++p)`. -/
def to_string_loop (pred : filter) : List Char → Nat → List Char → Except Err (List Char)
  | [], _, result => .ok result
  | c :: rest, p, result =>
    if c = NUL then .ok result
    else
      match pred ⟨p, c⟩ with
      | .error e => .error e
      | .ok b => to_string_loop pred rest (p + 1) (if b then result ++ [c] else result)

/-- The conversion `operator std::string`. -/
def to_string (m : Mem) (self : filtered_string_view) : Except Err (List Char) :=
  match self.ptr_ with
  | none => .ok []
  | some a => to_string_loop self.pred_ (m.drop a) a []

end filtered_string_view

/-! ## Library functions used by the source -/

/-- The C string stored at address `a`: the characters before the first NUL. -/
def cstr (m : Mem) (a : Nat) : List Char := (m.drop a).takeWhile (fun c => decide (c ≠ NUL))

/-- The function `std::strlen` of the C library. -/
def strlen (m : Mem) (a : Nat) : Nat := (cstr m a).length

/-- Scan for `std::string::find`: the list holds the characters of the string from
position `p` onwards. -/
def find_from (d : List Char) : List Char → Nat → Option Nat
  | [], p => if d = [] then some p else none
  | c :: t, p => if d.isPrefixOf (c :: t) then some p else find_from d t (p + 1)

/-- The member `std::string::find(d, start)` of the standard library: the least position
`p ≥ start` at which `d` occurs in `s`; `none` stands for `npos`. -/
def find (s d : List Char) (start : Nat) : Option Nat :=
  if start ≤ s.length then find_from d (s.drop start) start else none

/-! ## Cursors -/

/-- The objects of type `filtered_string_view`, by address: what a `fsv_` pointer or a
`this` pointer refers to. -/
abbrev Objs := Nat → filtered_string_view

/-- The private members of `filtered_string_view::const_iterator`. -/
structure const_iterator where
  fsv_ : Option Nat
  raw_pos_ : Nat
deriving DecidableEq, Repr

namespace const_iterator

/-- The loop `while (raw_pos_ < len && !pred(ptr_[raw_pos_])) ++raw_pos_;`.  The first
numeric argument bounds the iterations left and is started at `len - raw_pos_`, which the
loop cannot exceed. -/
def skip_loop (m : Mem) (pred : filter) (a len : Nat) : Nat → Nat → Except Err Nat
  | 0, raw_pos => .ok raw_pos
  | n + 1, raw_pos =>
    if raw_pos < len then
      match pred ⟨a + raw_pos, load m (a + raw_pos)⟩ with
      | .error e => .error e
      | .ok true => .ok raw_pos
      | .ok false => skip_loop m pred a len n (raw_pos + 1)
    else .ok raw_pos

/-- The constructor `const_iterator(const filtered_string_view* fsv, std::size_t raw_pos)`.
An exception of the predicate is passed on. -/
def ctor (m : Mem) (objs : Objs) (fsv : Option Nat) (raw_pos : Nat) :
    Except Err const_iterator :=
  match fsv with
  | none => .ok ⟨none, raw_pos⟩
  | some t =>
    match (objs t).ptr_ with
    | none => .ok ⟨some t, raw_pos⟩
    | some a =>
      let len := strlen m a
      match skip_loop m (objs t).pred_ a len (len - raw_pos) raw_pos with
      | .error e => .error e
      | .ok r => .ok ⟨some t, r⟩

/-- The member `operator*`: `fsv_->ptr_[raw_pos_]`; `none` when a null pointer would be
dereferenced. -/
def deref (m : Mem) (objs : Objs) (self : const_iterator) : Option Char :=
  match self.fsv_ with
  | none => none
  | some t =>
    match (objs t).ptr_ with
    | none => none
    | some a => some (load m (a + self.raw_pos_))

/-- The member `operator++()`: `do ++raw_pos_; while (raw_pos_ < len && !pred(ptr_[raw_pos_]))`,
that is one increment followed by the skipping loop.  The increment is kept exact: it agrees
with the source for every `raw_pos_` below `2 ^ 64 - 1`, hence at every offset of a buffer. -/
def inc (m : Mem) (objs : Objs) (self : const_iterator) : Except Err const_iterator :=
  match self.fsv_ with
  | none => .ok self
  | some t =>
    match (objs t).ptr_ with
    | none => .ok self
    | some a =>
      let len := strlen m a
      match skip_loop m (objs t).pred_ a len (len - (self.raw_pos_ + 1)) (self.raw_pos_ + 1) with
      | .error e => .error e
      | .ok r => .ok ⟨some t, r⟩

/-- The loop `while (raw_pos_ > 0 && !pred(ptr_[raw_pos_])) --raw_pos_;` on the offset. -/
def dec_loop (m : Mem) (pred : filter) (a : Nat) : Nat → Except Err Nat
  | 0 => .ok 0
  | r + 1 =>
    match pred ⟨a + (r + 1), load m (a + (r + 1))⟩ with
    | .error e => .error e
    | .ok true => .ok (r + 1)
    | .ok false => dec_loop m pred a r

/-- The member `operator--()`: `do --raw_pos_; while (raw_pos_ > 0 && !pred(ptr_[raw_pos_]))`,
that is one decrement (wrapping at zero) followed by the backward loop. -/
def dec (m : Mem) (objs : Objs) (self : const_iterator) : Except Err const_iterator :=
  match self.fsv_ with
  | none => .ok self
  | some t =>
    match (objs t).ptr_ with
    | none => .ok self
    | some a =>
      match dec_loop m (objs t).pred_ a ((self.raw_pos_ + SIZE_MOD - 1) % SIZE_MOD) with
      | .error e => .error e
      | .ok r => .ok ⟨some t, r⟩

/-- The member `operator==`. -/
def eq (self o : const_iterator) : Bool :=
  decide (self.fsv_ = o.fsv_) && decide (self.raw_pos_ = o.raw_pos_)

/-- The member `operator!=`. -/
def ne (self o : const_iterator) : Bool := !(eq self o)

end const_iterator

/-- The adaptor `std::reverse_iterator<const_iterator>` of the standard library. -/
structure reverse_iterator where
  current : const_iterator
deriving DecidableEq, Repr

namespace reverse_iterator

/-- The member `operator*` of `std::reverse_iterator`: `tmp = current; --tmp; return *tmp;`. -/
def deref (m : Mem) (objs : Objs) (self : reverse_iterator) : Except Err (Option Char) :=
  match const_iterator.dec m objs self.current with
  | .error e => .error e
  | .ok tmp => .ok (const_iterator.deref m objs tmp)

/-- The member `operator++` of `std::reverse_iterator`: `--current`. -/
def inc (m : Mem) (objs : Objs) (self : reverse_iterator) : Except Err reverse_iterator :=
  match const_iterator.dec m objs self.current with
  | .error e => .error e
  | .ok c => .ok ⟨c⟩

/-- Inequality of two `std::reverse_iterator`s: inequality of their base cursors. -/
def ne (self o : reverse_iterator) : Bool := const_iterator.ne self.current o.current

end reverse_iterator

namespace filtered_string_view

/-- The member `begin()` of the view stored at address `this`. -/
def begin (m : Mem) (objs : Objs) (this : Nat) : Except Err const_iterator :=
  const_iterator.ctor m objs (some this) 0

/-- The member `end()` of the view stored at address `this`. -/
def «end» (m : Mem) (objs : Objs) (this : Nat) : Except Err const_iterator :=
  const_iterator.ctor m objs (some this)
    (match (objs this).ptr_ with
     | some a => strlen m a
     | none => 0)

/-- The member `rbegin()`: `reverse_iterator(end())`. -/
def rbegin (m : Mem) (objs : Objs) (this : Nat) : Except Err reverse_iterator :=
  match «end» m objs this with
  | .error e => .error e
  | .ok it => .ok ⟨it⟩

/-- The member `rend()`: `reverse_iterator(begin())`. -/
def rend (m : Mem) (objs : Objs) (this : Nat) : Except Err reverse_iterator :=
  match begin m objs this with
  | .error e => .error e
  | .ok it => .ok ⟨it⟩

end filtered_string_view

/-- The loop of the range-based `for (auto c : fsv) os << c;` once `begin()` and `end()`
have been taken: `for (; it != e; ++it) os << *it;`.  The stream is the list of characters
written so far.  `none` when the iterations allowed by the first argument do not suffice. -/
def output_loop (m : Mem) (objs : Objs) (e : const_iterator) :
    Nat → const_iterator → List Char → Option (Except Err (List Char))
  | 0, it, os => if const_iterator.ne it e then none else some (.ok os)
  | n + 1, it, os =>
    if const_iterator.ne it e then
      match const_iterator.deref m objs it with
      | none => none
      | some c =>
        match const_iterator.inc m objs it with
        | .error x => some (.error x)
        | .ok it2 => output_loop m objs e n it2 (os ++ [c])
    else some (.ok os)

/-- The output operator `operator<<(std::ostream&, const filtered_string_view&)` for the view
stored at address `fsv`.  The loop is allowed one iteration per raw character. -/
def operator_out (m : Mem) (objs : Objs) (os : List Char) (fsv : Nat) :
    Option (Except Err (List Char)) :=
  match filtered_string_view.begin m objs fsv with
  | .error x => some (.error x)
  | .ok b =>
    match filtered_string_view.«end» m objs fsv with
    | .error x => some (.error x)
    | .ok e => output_loop m objs e (e.raw_pos_ + 1) b os

/-! ## compose, substr, split -/

/-- The closure `pred` of `compose`: `for (f : filts) if (!f(c)) return false; return true;`. -/
def compose_pred : List filter → filter
  | [], _ => .ok true
  | f :: fs, c =>
    match f c with
    | .error e => .error e
    | .ok false => .ok false
    | .ok true => compose_pred fs c

/-- The function `compose`. -/
def compose (m : Mem) (fsv_obj : filtered_string_view) (filts : List filter) :
    Except Err filtered_string_view :=
  filtered_string_view.ctor m fsv_obj.data (compose_pred filts)

/-- The closure `empty_pred` of `substr`. -/
def empty_pred : filter := fun _ => .ok false

/-- The loop of the closure `new_pred` of `substr`, `while (p <= &c && *p)`, for the
reference at address `caddr`; the list holds the memory cells from address `p` onwards. -/
def new_pred_loop (orig : filter) (pos end_ caddr : Nat) :
    List Char → Nat → Nat → Except Err Bool
  | [], _, _ => .ok false
  | ch :: rest, p, filtered_idx =>
    if p ≤ caddr ∧ ch ≠ NUL then
      if p = caddr then .ok (decide (filtered_idx ≥ pos) && decide (filtered_idx < end_))
      else
        match orig ⟨p, ch⟩ with
        | .error e => .error e
        | .ok b => new_pred_loop orig pos end_ caddr rest (p + 1)
            (if b then filtered_idx + 1 else filtered_idx)
    else .ok false

/-- The closure `new_pred` of `substr`, capturing `base`, `orig`, `pos` and `end`.  With a
null `base` the loop would dereference a null pointer; the closure then answers `false`. -/
def new_pred (m : Mem) (base : Option Nat) (orig : filter) (pos end_ : Nat) : filter :=
  fun c =>
    match orig c with
    | .error e => .error e
    | .ok false => .ok false
    | .ok true =>
      match base with
      | none => .ok false
      | some b => new_pred_loop orig pos end_ c.addr (m.drop b) b 0

/-- The function `substr`. -/
def substr (m : Mem) (fsv : filtered_string_view) (pos : Nat) (count : Option Nat) :
    Except Err filtered_string_view :=
  let sz := fsv.size
  if pos > sz then .error .out_of_range
  else if pos = sz ∨ count = some 0 then
    filtered_string_view.ctor m fsv.data empty_pred
  else
    let end_ :=
      match count with
      | some c => min ((pos + c) % SIZE_MOD) sz
      | none => sz
    match fsv.to_string m with
    | .error e => .error e
    | .ok _ => filtered_string_view.ctor m fsv.data (new_pred m fsv.data fsv.predicate pos end_)

/-- The loop of `split`: `while (pos != npos)`, followed by the final `push_back`.  `none`
when the iterations allowed by the first argument do not suffice. -/
def split_loop (m : Mem) (fsv : filtered_string_view) (s d : List Char) :
    Nat → Nat → Option Nat → List filtered_string_view →
      Option (Except Err (List filtered_string_view))
  | _, start, none, result =>
    match substr m fsv start none with
    | .error e => some (.error e)
    | .ok w => some (.ok (result ++ [w]))
  | 0, _, some _, _ => none
  | n + 1, start, some pos, result =>
    match substr m fsv start (some (pos - start)) with
    | .error e => some (.error e)
    | .ok w => split_loop m fsv s d n (pos + d.length) (find s d (pos + d.length)) (result ++ [w])

/-- The function `split`.  The loop is allowed one iteration per character of `s`, and one
more. -/
def split (m : Mem) (fsv tok : filtered_string_view) :
    Option (Except Err (List filtered_string_view)) :=
  match fsv.to_string m with
  | .error e => some (.error e)
  | .ok s =>
    match tok.to_string m with
    | .error e => some (.error e)
    | .ok d =>
      if s = [] ∨ d = [] then some (.ok [fsv])
      else split_loop m fsv s d (s.length + 1) 0 (find s d 0) []

/-! ## Specification vocabulary -/

/-- The references to the characters `cs` stored consecutively from address `a`. -/
def refs_from : Nat → List Char → List CharRef
  | _, [] => []
  | a, c :: cs => ⟨a, c⟩ :: refs_from (a + 1) cs

/-- The raw buffer of a view, as the list of its character references. -/
def raw (m : Mem) (v : filtered_string_view) : List CharRef :=
  match v.ptr_ with
  | none => []
  | some a => refs_from a (cstr m a)

/-- The predicate returns `true` (and does not throw) on the reference. -/
def accepts (p : filter) (r : CharRef) : Bool :=
  match p r with
  | .ok true => true
  | _ => false

/-- The predicate returns normally on the reference. -/
def returns (p : filter) (r : CharRef) : Bool :=
  match p r with
  | .ok _ => true
  | .error _ => false

/-- The matching raw positions of a view, in buffer order. -/
def hits (m : Mem) (v : filtered_string_view) : List CharRef :=
  (raw m v).filter (accepts v.pred_)

/-- The filtered content of a view. -/
def content (m : Mem) (v : filtered_string_view) : List Char :=
  (hits m v).map CharRef.val

/-- A view as the constructors leave it: the predicate returns on every character of the
raw buffer and the cached length is the number of matching characters. -/
def Valid (m : Mem) (v : filtered_string_view) : Prop :=
  (∀ r ∈ raw m v, returns v.pred_ r = true) ∧ v.len_ = (hits m v).length

instance (m : Mem) (v : filtered_string_view) : Decidable (Valid m v) := by
  unfold Valid; infer_instance

/-- A predicate that never throws, given by a Boolean test. -/
def total (f : CharRef → Bool) : filter := fun r => .ok (f r)

/-! ## Further specification vocabulary and example data -/

open filtered_string_view

/-- The characters before the first NUL of a list of memory cells. -/
def upto_nul (cells : List Char) : List Char := cells.takeWhile (fun c => decide (c ≠ NUL))

/-- The memory used in the examples: "a1b2c3" at address 0, "hello world" at address 7,
"c,a,t" at address 19, "," at address 25 and ",,a,,b," at address 27. -/
def demo_mem : Mem := "a1b2c3\x00hello world\x00c,a,t\x00,\x00,,a,,b,\x00".toList

/-- The view over "a1b2c3" with the predicate "is alphabetic". -/
def demo_alpha : filtered_string_view := ⟨some 0, 3, fun r => .ok r.val.isAlpha⟩

/-- The view over "hello world" with the default predicate. -/
def demo_hello : filtered_string_view := ⟨some 7, 11, default_predicate⟩

/-- The predicate accepts the character at offset `j` of the buffer at address `a`. -/
def acc_at (m : Mem) (pred : filter) (a j : Nat) : Bool :=
  accepts pred ⟨a + j, load m (a + j)⟩

/-- The cursor reached from `it` by `k` successive applications of `operator++`. -/
def inc_n (m : Mem) (objs : Objs) : Nat → const_iterator → Except Err const_iterator
  | 0, it => .ok it
  | k + 1, it =>
    match inc_n m objs k it with
    | .error e => .error e
    | .ok it2 => const_iterator.inc m objs it2

/-- The reverse cursor reached from `it` by `k` successive applications of `operator++`. -/
def rinc_n (m : Mem) (objs : Objs) : Nat → reverse_iterator → Except Err reverse_iterator
  | 0, it => .ok it
  | k + 1, it =>
    match rinc_n m objs k it with
    | .error e => .error e
    | .ok it2 => reverse_iterator.inc m objs it2

/-- A view over ",,a,,b,": only the letters match, so the first raw character does not. -/
def demo_letters : filtered_string_view := ⟨some 27, 2, fun r => .ok r.val.isAlpha⟩

/-- The value `end` computed by `substr` from `pos`, the optional count and `size()`. -/
def window_end (v : filtered_string_view) (pos : Nat) (count : Option Nat) : Nat :=
  match count with
  | some c => min ((pos + c) % SIZE_MOD) v.size
  | none => v.size

/-- The rank of raw offset `j`: the number of matches of the view before it. -/
def rank (m : Mem) (v : filtered_string_view) (j : Nat) : Nat :=
  (((raw m v).take j).filter (accepts v.pred_)).length

/-- The value `end` in exact arithmetic: `min(pos + count, size())`, and `size()` when the
count is absent. -/
def exact_end (v : filtered_string_view) (pos : Nat) (count : Option Nat) : Nat :=
  match count with
  | some c => min (pos + c) v.size
  | none => v.size

/-- The string `d` occurs in `s` at position `j`. -/
def occurs_at (s d : List Char) (j : Nat) : Prop := d.isPrefixOf (s.drop j) = true

instance (s d : List Char) (j : Nat) : Decidable (occurs_at s d j) := by
  unfold occurs_at; infer_instance

/-- The position `b` is the first occurrence of `d` in `s` at or after position `x`. -/
def first_occurrence (s d : List Char) (x b : Nat) : Prop :=
  x ≤ b ∧ b + d.length ≤ s.length ∧ occurs_at s d b ∧ ∀ j, x ≤ j → j < b → ¬ occurs_at s d j

instance (s d : List Char) (x b : Nat) : Decidable (first_occurrence s d x b) := by
  unfold first_occurrence; infer_instance

/-- There is no occurrence of `d` in `s` at or after position `x` (positions run up to the
length of `s`). -/
def no_occurrence (s d : List Char) (x : Nat) : Prop :=
  ∀ j, x ≤ j → j < s.length + 1 → ¬ occurs_at s d j

instance (s d : List Char) (x : Nat) : Decidable (no_occurrence s d x) := by
  unfold no_occurrence; infer_instance

/-- The leftmost-first non-overlapping scan of `s` for `d` from position `x`: the listed
positions are the successive occurrences, each the first one at or after the end of the
previous one, and there is none after the last. -/
def is_scan (s d : List Char) : Nat → List Nat → Prop
  | x, [] => no_occurrence s d x
  | x, b :: bs => first_occurrence s d x b ∧ is_scan s d (b + d.length) bs

instance is_scan_decidable (s d : List Char) :
    (x : Nat) → (bs : List Nat) → Decidable (is_scan s d x bs)
  | _, [] => by unfold is_scan; infer_instance
  | _, b :: bs => by
    unfold is_scan
    have := is_scan_decidable s d (b + d.length) bs
    infer_instance

/-- The gaps of a scan: the pieces of `s` from position `x` between the occurrences. -/
def gaps (s d : List Char) : Nat → List Nat → List (List Char)
  | x, [] => [s.drop x]
  | x, b :: bs => (s.drop x).take (b - x) :: gaps s d (b + d.length) bs

/-- The view over "c,a,t" with the default predicate. -/
def demo_cat : filtered_string_view := ⟨some 19, 5, default_predicate⟩

/-- The delimiter view over ",". -/
def demo_comma : filtered_string_view := ⟨some 25, 1, default_predicate⟩

/-- The view over ",,a,,b," with the default predicate. -/
def demo_commas : filtered_string_view := ⟨some 27, 7, default_predicate⟩

/-- The comparison `operator<` of two `std::string`s, of the standard library:
lexicographic, character by character. -/
def string_lt : List Char → List Char → Bool
  | [], [] => false
  | [], _ :: _ => true
  | _ :: _, [] => false
  | a :: as, b :: bs => if a < b then true else if b < a then false else string_lt as bs

/-- The friend `operator==`. -/
def operator_eq (m : Mem) (a b : filtered_string_view) : Except Err Bool :=
  match a.to_string m with
  | .error e => .error e
  | .ok s =>
    match b.to_string m with
    | .error e => .error e
    | .ok t => .ok (decide (s = t))

/-- The friend `operator!=`: `!(a == b)`. -/
def operator_ne (m : Mem) (a b : filtered_string_view) : Except Err Bool :=
  match operator_eq m a b with
  | .error e => .error e
  | .ok r => .ok (!r)

/-- The friend `operator<`. -/
def operator_lt (m : Mem) (a b : filtered_string_view) : Except Err Bool :=
  match a.to_string m with
  | .error e => .error e
  | .ok s =>
    match b.to_string m with
    | .error e => .error e
    | .ok t => .ok (string_lt s t)

/-- The friend `operator<=`: `!(b < a)`. -/
def operator_le (m : Mem) (a b : filtered_string_view) : Except Err Bool :=
  match operator_lt m b a with
  | .error e => .error e
  | .ok r => .ok (!r)

/-- The friend `operator>`: `b < a`. -/
def operator_gt (m : Mem) (a b : filtered_string_view) : Except Err Bool :=
  operator_lt m b a

/-- The friend `operator>=`: `!(a < b)`. -/
def operator_ge (m : Mem) (a b : filtered_string_view) : Except Err Bool :=
  match operator_lt m a b with
  | .error e => .error e
  | .ok r => .ok (!r)

/-- The move constructor: the new object, and the source object as it is left behind. -/
def move_ctor (other : filtered_string_view) : filtered_string_view × filtered_string_view :=
  (⟨other.ptr_, other.len_, other.pred_⟩, ⟨none, 0, empty_function⟩)

/-- The move assignment `*this = std::move(other)` for the objects at addresses `this` and
`other`: the objects after the assignment. -/
def move_assign (objs : Objs) (this other : Nat) : Objs :=
  if this ≠ other then
    fun p =>
      if p = other then ⟨none, 0, empty_function⟩
      else if p = this then ⟨(objs other).ptr_, (objs other).len_, (objs other).pred_⟩
      else objs p
  else objs

/-- A view over the empty string stored at address 6 of the example memory. -/
def demo_nothing : filtered_string_view := ⟨some 6, 0, default_predicate⟩

/-- The empty sentinel state of a moved-from view and what the operations do on it: null
buffer, size 0, a predicate other than the default one; `size()` is 0, `empty()` holds, the
materialized string is empty, `begin()` equals `end()` and `at(i)` throws for every `i`. -/
def moved_from (m : Mem) (w : filtered_string_view) : Prop :=
  w.ptr_ = none ∧ w.len_ = 0 ∧ w.pred_ ≠ default_predicate ∧
  w.size = 0 ∧ w.empty = true ∧ to_string m w = .ok [] ∧
  (∀ (objs : Objs) (p : Nat), objs p = w → begin m objs p = «end» m objs p) ∧
  ∀ i, «at» m w i = .error .domain_error

/-- The predicate of the view holds at raw offset `j` of its buffer. -/
def holds_at (m : Mem) (v : filtered_string_view) (j : Nat) : Prop :=
  ∃ x, (raw m v)[j]? = some x ∧ accepts v.pred_ x = true

/-- The strings of a list concatenated in order, with `d` between consecutive ones. -/
def join_with (d : List Char) : List (List Char) → List Char
  | [] => []
  | [x] => x
  | x :: y :: rest => x ++ d ++ join_with d (y :: rest)

/-! ## Basic facts about memory and raw buffers -/

theorem cstr_eq (m : Mem) (a : Nat) : cstr m a = upto_nul (m.drop a) := rfl

theorem upto_nul_nil : upto_nul [] = [] := rfl

theorem upto_nul_cons_nul (rest : List Char) : upto_nul (NUL :: rest) = [] := by
  simp [upto_nul]

theorem upto_nul_cons (c : Char) (rest : List Char) (hc : c ≠ NUL) :
    upto_nul (c :: rest) = c :: upto_nul rest := by
  simp [upto_nul, List.takeWhile_cons, hc]

theorem refs_from_length (a : Nat) (cs : List Char) : (refs_from a cs).length = cs.length := by
  induction cs generalizing a with
  | nil => rfl
  | cons c cs ih => simp [refs_from, ih]

theorem returns_iff (p : filter) (r : CharRef) : returns p r = true ↔ ∃ b, p r = .ok b := by
  unfold returns
  cases h : p r <;> simp

theorem accepts_iff (p : filter) (r : CharRef) : accepts p r = true ↔ p r = .ok true := by
  unfold accepts
  cases h : p r with
  | error e => simp
  | ok b => cases b <;> simp

theorem accepts_false_of_ok_false (p : filter) (r : CharRef) (h : p r = .ok false) :
    accepts p r = false := by
  simp [accepts, h]

theorem accepts_true_of_ok_true (p : filter) (r : CharRef) (h : p r = .ok true) :
    accepts p r = true := by
  simp [accepts, h]

/-! ## The scanning loops of the view core -/

theorem count_filtered_loop_ok (pred : filter) (cells : List Char) (p cnt : Nat)
    (h : ∀ r ∈ refs_from p (upto_nul cells), returns pred r = true) :
    count_filtered_loop pred cells p cnt
      = .ok (cnt + ((refs_from p (upto_nul cells)).filter (accepts pred)).length) := by
  induction cells generalizing p cnt with
  | nil => simp [count_filtered_loop, upto_nul_nil, refs_from]
  | cons c rest ih =>
    by_cases hc : c = NUL
    · subst hc
      simp [count_filtered_loop, upto_nul_cons_nul, refs_from]
    · rw [upto_nul_cons c rest hc] at h ⊢
      simp only [refs_from, List.mem_cons, forall_eq_or_imp] at h
      obtain ⟨h0, hrest⟩ := h
      obtain ⟨b, hb⟩ := (returns_iff pred _).1 h0
      simp only [count_filtered_loop, hc, if_false, hb, refs_from]
      rw [ih (p + 1) _ hrest]
      cases b
      · simp [List.filter_cons, accepts_false_of_ok_false pred _ hb]
      · simp [List.filter_cons, accepts_true_of_ok_true pred _ hb]
        omega

theorem count_filtered_loop_returns (pred : filter) (cells : List Char) (p cnt n : Nat)
    (h : count_filtered_loop pred cells p cnt = .ok n) :
    ∀ r ∈ refs_from p (upto_nul cells), returns pred r = true := by
  induction cells generalizing p cnt with
  | nil => simp [upto_nul_nil, refs_from]
  | cons c rest ih =>
    by_cases hc : c = NUL
    · subst hc
      simp [upto_nul_cons_nul, refs_from]
    · rw [upto_nul_cons c rest hc]
      simp only [refs_from, List.mem_cons, forall_eq_or_imp]
      simp only [count_filtered_loop, hc, if_false] at h
      cases hb : pred ⟨p, c⟩ with
      | error e => rw [hb] at h; cases h
      | ok b =>
        rw [hb] at h
        exact ⟨(returns_iff pred _).2 ⟨b, hb⟩, ih _ _ h⟩

theorem to_string_loop_ok (pred : filter) (cells : List Char) (p : Nat) (result : List Char)
    (h : ∀ r ∈ refs_from p (upto_nul cells), returns pred r = true) :
    to_string_loop pred cells p result
      = .ok (result ++ ((refs_from p (upto_nul cells)).filter (accepts pred)).map CharRef.val) := by
  induction cells generalizing p result with
  | nil => simp [to_string_loop, upto_nul_nil, refs_from]
  | cons c rest ih =>
    by_cases hc : c = NUL
    · subst hc
      simp [to_string_loop, upto_nul_cons_nul, refs_from]
    · rw [upto_nul_cons c rest hc] at h ⊢
      simp only [refs_from, List.mem_cons, forall_eq_or_imp] at h
      obtain ⟨h0, hrest⟩ := h
      obtain ⟨b, hb⟩ := (returns_iff pred _).1 h0
      simp only [to_string_loop, hc, if_false, hb, refs_from]
      rw [ih (p + 1) _ hrest]
      cases b
      · simp [List.filter_cons, accepts_false_of_ok_false pred _ hb]
      · simp [List.filter_cons, accepts_true_of_ok_true pred _ hb]

/-- A valid view caches the number of matching characters. -/
theorem count_filtered_valid (m : Mem) (v : filtered_string_view) (hv : Valid m v) :
    count_filtered m v = .ok v.len_ := by
  obtain ⟨hret, hlen⟩ := hv
  unfold count_filtered
  unfold hits raw at hlen
  unfold raw at hret
  cases hp : v.ptr_ with
  | none => simp [hp] at hlen; simp [hlen]
  | some a =>
    simp only [hp] at hlen hret ⊢
    rw [count_filtered_loop_ok v.pred_ (m.drop a) a 0 hret, hlen]
    simp [cstr_eq]

/-- The constructor succeeds exactly on predicates that return on the whole raw buffer, and
then yields a valid view. -/
theorem ctor_ok_valid (m : Mem) (s : Option Nat) (pred : filter) (v : filtered_string_view)
    (h : ctor m s pred = .ok v) : Valid m v ∧ v.ptr_ = s ∧ v.pred_ = pred := by
  unfold ctor at h
  cases hc : count_filtered m ⟨s, 0, pred⟩ with
  | error e => rw [hc] at h; cases h
  | ok n =>
    rw [hc] at h
    injection h with h
    subst h
    refine ⟨?_, rfl, rfl⟩
    unfold count_filtered at hc
    cases s with
    | none =>
      simp at hc
      subst hc
      simp [Valid, raw, hits]
    | some a =>
      simp only at hc
      have hret := count_filtered_loop_returns pred (m.drop a) a 0 n hc
      rw [count_filtered_loop_ok pred (m.drop a) a 0 hret] at hc
      injection hc with hc
      refine ⟨?_, ?_⟩
      · simpa [raw, cstr_eq] using hret
      · simp [hits, raw, cstr_eq, ← hc]

theorem ctor_of_returns (m : Mem) (s : Option Nat) (pred : filter)
    (h : ∀ r ∈ raw m ⟨s, 0, pred⟩, returns pred r = true) :
    ctor m s pred = .ok ⟨s, (hits m ⟨s, 0, pred⟩).length, pred⟩ := by
  unfold ctor count_filtered
  cases s with
  | none => simp [hits, raw]
  | some a =>
    simp only [raw, cstr_eq] at h
    simp only [count_filtered_loop_ok pred (m.drop a) a 0 h]
    simp [hits, raw, cstr_eq]

theorem to_string_valid (m : Mem) (v : filtered_string_view) (hv : Valid m v) :
    to_string m v = .ok (content m v) := by
  obtain ⟨hret, -⟩ := hv
  unfold to_string content hits
  unfold raw at hret ⊢
  cases hp : v.ptr_ with
  | none => simp
  | some a =>
    simp only [hp] at hret ⊢
    rw [to_string_loop_ok v.pred_ (m.drop a) a [] hret]
    simp [cstr_eq]

theorem returns_total (f : CharRef → Bool) (r : CharRef) : returns (total f) r = true := rfl

theorem accepts_total (f : CharRef → Bool) : accepts (total f) = f := by
  funext r
  unfold accepts total
  cases f r <;> rfl

theorem upto_nul_append_nul (b post : List Char) (hb : ∀ c ∈ b, c ≠ NUL) :
    upto_nul (b ++ NUL :: post) = b := by
  induction b with
  | nil => simp [upto_nul]
  | cons c b ih =>
    have hc : c ≠ NUL := hb c (List.mem_cons_self _ _)
    have hb2 : ∀ x ∈ b, x ≠ NUL := fun x hx => hb x (List.mem_cons_of_mem _ hx)
    rw [List.cons_append, upto_nul_cons c _ hc, ih hb2]

theorem cstr_of_layout (pre b post : List Char) (hb : ∀ c ∈ b, c ≠ NUL) :
    cstr (pre ++ b ++ NUL :: post) pre.length = b := by
  rw [cstr_eq, List.append_assoc, List.drop_left]
  exact upto_nul_append_nul b post hb

/-- C1: for every NUL-free buffer `b` (stored anywhere in memory and followed by its
terminator) and every predicate `p`, the constructor returns a view whose `size()` is the
number of positions of `b` whose character reference satisfies `p`, and `empty()` holds
exactly when that number is zero. -/
theorem C1_size_counts_matches (pre b post : List Char) (p : CharRef → Bool)
    (hb : ∀ c ∈ b, c ≠ NUL) :
    ∃ v, ctor (pre ++ b ++ NUL :: post) (some pre.length) (total p) = .ok v ∧
      v.size = ((refs_from pre.length b).filter p).length ∧
      (v.empty = true ↔ ((refs_from pre.length b).filter p).length = 0) := by
  have hc := cstr_of_layout pre b post hb
  refine ⟨_, ctor_of_returns _ _ _ (fun r _ => returns_total p r), ?_, ?_⟩
  · simp only [size, hits, raw, hc, accepts_total]
  · simp only [empty, hits, raw, hc, accepts_total, decide_eq_true_eq]

/-- C1 at the buffer "a1b2c3" stored at address 2, with the predicate "is alphabetic". -/
theorem C1_size_counts_matches_witness :
    (∀ c ∈ "a1b2c3".toList, c ≠ NUL) ∧
    ∃ v, ctor ("xx".toList ++ "a1b2c3".toList ++ NUL :: "yy".toList) (some "xx".toList.length)
        (total (fun r => r.val.isAlpha)) = .ok v ∧
      v.size = ((refs_from "xx".toList.length "a1b2c3".toList).filter
        (fun r => r.val.isAlpha)).length ∧
      (v.empty = true ↔ ((refs_from "xx".toList.length "a1b2c3".toList).filter
        (fun r => r.val.isAlpha)).length = 0) :=
  ⟨by decide, C1_size_counts_matches "xx".toList "a1b2c3".toList "yy".toList
    (fun r => r.val.isAlpha) (by decide)⟩

/-! ## Positions in the raw buffer -/

theorem refs_from_getElem? (a : Nat) (cs : List Char) (k : Nat) :
    (refs_from a cs)[k]? = (cs[k]?).map (fun c => (⟨a + k, c⟩ : CharRef)) := by
  induction cs generalizing a k with
  | nil => simp [refs_from]
  | cons c cs ih =>
    cases k with
    | zero => simp [refs_from]
    | succ k =>
      simp only [refs_from, List.getElem?_cons_succ, ih]
      have : a + 1 + k = a + (k + 1) := by omega
      rw [this]

theorem upto_nul_getElem? (cells : List Char) (k : Nat) (c : Char)
    (h : (upto_nul cells)[k]? = some c) : cells[k]? = some c ∧ c ≠ NUL := by
  induction cells generalizing k with
  | nil => simp [upto_nul_nil] at h
  | cons x rest ih =>
    by_cases hx : x = NUL
    · subst hx
      simp [upto_nul_cons_nul] at h
    · rw [upto_nul_cons x rest hx] at h
      cases k with
      | zero =>
        simp at h
        subst h
        simp [hx]
      | succ k =>
        simp only [List.getElem?_cons_succ] at h ⊢
        exact ih k h

theorem upto_nul_length_le (cells : List Char) : (upto_nul cells).length ≤ cells.length := by
  induction cells with
  | nil => simp [upto_nul_nil]
  | cons x rest ih =>
    by_cases hx : x = NUL
    · subst hx
      simp [upto_nul_cons_nul]
    · rw [upto_nul_cons x rest hx]
      simp
      exact ih

theorem upto_nul_end (cells : List Char) : cells.getD (upto_nul cells).length NUL = NUL := by
  induction cells with
  | nil => simp [upto_nul_nil]
  | cons x rest ih =>
    by_cases hx : x = NUL
    · subst hx
      simp [upto_nul_cons_nul]
    · rw [upto_nul_cons x rest hx]
      simpa using ih

theorem load_drop (m : Mem) (a k : Nat) : (m.drop a).getD k NUL = load m (a + k) := by
  simp [load, List.getD_eq_getElem?_getD, List.getElem?_drop]

/-- The character stored at offset `k` of a C string is the `k`-th character of the string. -/
theorem cstr_getElem? (m : Mem) (a k : Nat) (c : Char) (h : (cstr m a)[k]? = some c) :
    load m (a + k) = c ∧ c ≠ NUL := by
  obtain ⟨h1, h2⟩ := upto_nul_getElem? (m.drop a) k c h
  refine ⟨?_, h2⟩
  rw [← load_drop, List.getD_eq_getElem?_getD, h1]
  rfl

/-- The terminator of a C string. -/
theorem load_strlen (m : Mem) (a : Nat) : load m (a + strlen m a) = NUL := by
  rw [← load_drop]
  exact upto_nul_end (m.drop a)

theorem strlen_le (m : Mem) (a : Nat) : strlen m a ≤ m.length - a := by
  have := upto_nul_length_le (m.drop a)
  simpa [strlen, cstr_eq] using this

/-- The reference at offset `k` of a raw buffer starting at address `a`. -/
theorem refs_cstr_getElem? (m : Mem) (a k : Nat) (hk : k < strlen m a) :
    (refs_from a (cstr m a))[k]? = some ⟨a + k, load m (a + k)⟩ := by
  rw [refs_from_getElem?]
  have hlt : k < (cstr m a).length := hk
  have hget : (cstr m a)[k]? = some ((cstr m a)[k]) := List.getElem?_eq_getElem hlt
  have := (cstr_getElem? m a k _ hget).1
  rw [hget, Option.map_some', this]

theorem refs_cstr_length (m : Mem) (a : Nat) : (refs_from a (cstr m a)).length = strlen m a := by
  rw [refs_from_length]; rfl

/-! ## Ranks in a filtered list -/

/-- The element at raw position `k` with `j` matches before it is the `j`-th match. -/
theorem filter_getElem?_of_rank {α : Type} (p : α → Bool) (l : List α) (k j : Nat) (x : α)
    (hx : l[k]? = some x) (hp : p x = true) (hj : ((l.take k).filter p).length = j) :
    (l.filter p)[j]? = some x := by
  have hk : k < l.length := by
    by_contra hcon
    rw [List.getElem?_eq_none (by omega)] at hx
    cases hx
  have hsplit : l = l.take k ++ x :: l.drop (k + 1) := by
    have hxe : l[k] = x := by
      rw [List.getElem?_eq_getElem hk] at hx
      exact Option.some.inj hx
    rw [← hxe, ← List.drop_eq_getElem_cons hk, List.take_append_drop]
  have hf : l.filter p = (l.take k).filter p ++ x :: (l.drop (k + 1)).filter p := by
    conv_lhs => rw [hsplit]
    rw [List.filter_append, List.filter_cons, hp]
    rfl
  rw [hf, List.getElem?_append_right (by omega), hj]
  simp

/-! ## The index mapper -/

theorem filtered_index_to_raw_loop_spec (pred : filter) (a idx : Nat) (cells : List Char)
    (i seen : Nat)
    (hret : ∀ r ∈ refs_from (a + i) (upto_nul cells), returns pred r = true)
    (hs : seen ≤ idx) :
    (idx - seen < ((refs_from (a + i) (upto_nul cells)).filter (accepts pred)).length →
      ∃ k ref, filtered_index_to_raw_loop pred a idx cells i seen = .ok (i + k) ∧
        (refs_from (a + i) (upto_nul cells))[k]? = some ref ∧ accepts pred ref = true ∧
        (((refs_from (a + i) (upto_nul cells)).take k).filter (accepts pred)).length
          = idx - seen) ∧
    (((refs_from (a + i) (upto_nul cells)).filter (accepts pred)).length ≤ idx - seen →
      filtered_index_to_raw_loop pred a idx cells i seen = .error .out_of_range) := by
  induction cells generalizing i seen with
  | nil => simp [filtered_index_to_raw_loop, upto_nul_nil, refs_from]
  | cons c rest ih =>
    by_cases hc : c = NUL
    · subst hc
      simp [filtered_index_to_raw_loop, upto_nul_cons_nul, refs_from]
    · rw [upto_nul_cons c rest hc] at hret ⊢
      simp only [refs_from, List.mem_cons, forall_eq_or_imp] at hret
      obtain ⟨h0, hrest⟩ := hret
      obtain ⟨b, hb⟩ := (returns_iff pred _).1 h0
      simp only [filtered_index_to_raw_loop, hc, if_false, hb, refs_from]
      cases b with
      | false =>
        have hacc := accepts_false_of_ok_false pred _ hb
        obtain ⟨ih1, ih2⟩ := ih (i + 1) seen hrest hs
        simp only [List.filter_cons, hacc]
        refine ⟨fun hlt => ?_, fun hle => ?_⟩
        · obtain ⟨k, ref, hk1, hk2, hk3, hk4⟩ := ih1 hlt
          refine ⟨k + 1, ref, ?_, ?_, hk3, ?_⟩
          · simp only [hk1]
            congr 1
            omega
          · simpa using hk2
          · simpa [List.take_succ_cons, List.filter_cons, hacc] using hk4
        · simpa using ih2 hle
      | true =>
        have hacc := accepts_true_of_ok_true pred _ hb
        simp only [List.filter_cons, hacc, if_true, List.length_cons]
        by_cases hsi : seen = idx
        · subst hsi
          simp only [if_true]
          refine ⟨fun _ => ⟨0, ⟨a + i, c⟩, ?_, ?_, hacc, ?_⟩, fun hle => ?_⟩
          · simp
          · simp
          · simp
          · omega
        · simp only [hsi, if_false]
          have hsub : idx - (seen + 1) + 1 = idx - seen := by omega
          have ih0 := ih (i + 1) (seen + 1) hrest (by omega)
          rw [show a + (i + 1) = a + i + 1 from rfl] at ih0
          obtain ⟨ih1, ih2⟩ := ih0
          refine ⟨fun hlt => ?_, fun hle => ?_⟩
          · have hlt2 : idx - (seen + 1)
                < ((refs_from (a + i + 1) (upto_nul rest)).filter (accepts pred)).length := by
              omega
            obtain ⟨k, ref, hk1, hk2, hk3, hk4⟩ := ih1 hlt2
            refine ⟨k + 1, ref, ?_, ?_, hk3, ?_⟩
            · simp only [hk1]
              congr 1
              omega
            · simpa using hk2
            · simp only [List.take_succ_cons, List.filter_cons, hacc, if_true,
                List.length_cons]
              rw [hk4]
              exact hsub
          · have hle2 : ((refs_from (a + i + 1) (upto_nul rest)).filter (accepts pred)).length
                ≤ idx - (seen + 1) := by
              omega
            exact ih2 hle2

/-- The index mapper on a valid view: below `size()` it returns the raw offset of the match
of that rank, from `size()` on it throws `std::out_of_range`. -/
theorem filtered_index_to_raw_valid (m : Mem) (v : filtered_string_view) (i : Nat)
    (hv : Valid m v) :
    (i < v.size → ∃ r ref, filtered_index_to_raw m v i = .ok r ∧
        (raw m v)[r]? = some ref ∧ accepts v.pred_ ref = true ∧
        (((raw m v).take r).filter (accepts v.pred_)).length = i ∧
        index m v i = .ok ref.val) ∧
    (v.size ≤ i → filtered_index_to_raw m v i = .error .out_of_range) := by
  obtain ⟨hret, hlen⟩ := hv
  unfold size
  unfold hits at hlen
  unfold index filtered_index_to_raw
  unfold raw at hret hlen ⊢
  cases hp : v.ptr_ with
  | none =>
    simp only [hp] at hlen
    simp at hlen
    simp [hlen]
  | some a =>
    simp only [hp] at hret hlen ⊢
    have hspec := filtered_index_to_raw_loop_spec v.pred_ a i (m.drop a) 0 0
      (by simpa [cstr_eq] using hret) (Nat.zero_le _)
    simp only [Nat.add_zero, Nat.sub_zero, Nat.zero_add, ← cstr_eq] at hspec
    obtain ⟨h1, h2⟩ := hspec
    rw [hlen]
    refine ⟨fun hlt => ?_, fun hle => h2 hle⟩
    obtain ⟨k, ref, hk1, hk2, hk3, hk4⟩ := h1 hlt
    refine ⟨k, ref, hk1, hk2, hk3, hk4, ?_⟩
    rw [hk1]
    have hklt : k < strlen m a := by
      by_contra hcon
      rw [List.getElem?_eq_none (by rw [refs_cstr_length]; omega)] at hk2
      cases hk2
    rw [refs_cstr_getElem? m a k hklt] at hk2
    injection hk2 with hk2
    simp [← hk2]

/-! ## Claims about the view core -/

theorem demo_alpha_valid : Valid demo_mem demo_alpha := by decide

theorem demo_hello_valid : Valid demo_mem demo_hello := by decide

/-- Below `size()`, `operator[]` returns the character of that rank in the content. -/
theorem index_valid (m : Mem) (v : filtered_string_view) (i : Nat) (hv : Valid m v)
    (hlt : i < v.size) :
    ∃ r ref, filtered_index_to_raw m v i = .ok r ∧
        (raw m v)[r]? = some ref ∧ accepts v.pred_ ref = true ∧
        (((raw m v).take r).filter (accepts v.pred_)).length = i ∧
        index m v i = .ok ref.val ∧ (content m v)[i]? = some ref.val := by
  obtain ⟨r, ref, hr1, hr2, hr3, hr4, hr5⟩ := (filtered_index_to_raw_valid m v i hv).1 hlt
  refine ⟨r, ref, hr1, hr2, hr3, hr4, hr5, ?_⟩
  have := filter_getElem?_of_rank (accepts v.pred_) (raw m v) r i ref hr2 hr3 hr4
  simp [content, hits, List.getElem?_map, this]

/-- C2: on every view, for a logical index `i < size()` the index mapper returns the raw
offset `r` at which the predicate holds and before which exactly `i` positions satisfy the
predicate, and `operator[]` returns the character at `r`, which is the `i`-th character of
the filtered content; for `i >= size()` the index mapper throws `std::out_of_range`. -/
theorem C2_index_mapper (m : Mem) (v : filtered_string_view) (i : Nat) (hv : Valid m v) :
    (i < v.size → ∃ r ref, filtered_index_to_raw m v i = .ok r ∧
        (raw m v)[r]? = some ref ∧ accepts v.pred_ ref = true ∧
        (((raw m v).take r).filter (accepts v.pred_)).length = i ∧
        index m v i = .ok ref.val ∧ (content m v)[i]? = some ref.val) ∧
    (v.size ≤ i → filtered_index_to_raw m v i = .error .out_of_range) :=
  ⟨index_valid m v i hv, (filtered_index_to_raw_valid m v i hv).2⟩

/-- C2 at the view over "a1b2c3" with "is alphabetic" and the index 1. -/
theorem C2_index_mapper_witness :
    Valid demo_mem demo_alpha ∧
    (1 < demo_alpha.size → ∃ r ref, filtered_index_to_raw demo_mem demo_alpha 1 = .ok r ∧
        (raw demo_mem demo_alpha)[r]? = some ref ∧ accepts demo_alpha.pred_ ref = true ∧
        (((raw demo_mem demo_alpha).take r).filter (accepts demo_alpha.pred_)).length = 1 ∧
        index demo_mem demo_alpha 1 = .ok ref.val ∧
        (content demo_mem demo_alpha)[1]? = some ref.val) ∧
    (demo_alpha.size ≤ 1 →
      filtered_index_to_raw demo_mem demo_alpha 1 = .error .out_of_range) :=
  ⟨by decide, C2_index_mapper demo_mem demo_alpha 1 (by decide)⟩

/-- C3: on every view `at(i)` throws its index error (`std::domain_error`) exactly when
`i >= size()`, in particular at `i = size()`; when `i < size()` it returns the same character
as `operator[]`; on a default-constructed view it throws for every `i`. -/
theorem C3_at_checked (m : Mem) (v : filtered_string_view) (i : Nat) (hv : Valid m v) :
    ((∃ e, «at» m v i = .error e) ↔ v.size ≤ i) ∧
    (v.size ≤ i → «at» m v i = .error .domain_error) ∧
    «at» m v v.size = .error .domain_error ∧
    (i < v.size → ∃ c, «at» m v i = .ok c ∧ index m v i = .ok c) ∧
    «at» m ctor_default i = .error .domain_error := by
  have hok : i < v.size → ∃ c, «at» m v i = .ok c ∧ index m v i = .ok c := by
    intro hlt
    obtain ⟨r, ref, -, -, -, -, hr5⟩ := (filtered_index_to_raw_valid m v i hv).1 hlt
    refine ⟨ref.val, ?_, hr5⟩
    unfold «at»
    unfold size at hlt
    rw [if_neg (by omega), hr5]
  have herr : ∀ j, v.size ≤ j → «at» m v j = .error .domain_error := by
    intro j hle
    unfold «at»
    unfold size at hle
    rw [if_pos hle]
  refine ⟨⟨fun ⟨e, he⟩ => ?_, fun hle => ⟨_, herr i hle⟩⟩, herr i, herr _ (Nat.le_refl _), hok, ?_⟩
  · by_contra hcon
    obtain ⟨c, hc, -⟩ := hok (by omega)
    rw [hc] at he
    cases he
  · simp [«at», ctor_default]

/-- C3 at the view over "a1b2c3" with "is alphabetic" and the index 2. -/
theorem C3_at_checked_witness :
    Valid demo_mem demo_alpha ∧
    (((∃ e, «at» demo_mem demo_alpha 2 = .error e) ↔ demo_alpha.size ≤ 2) ∧
    (demo_alpha.size ≤ 2 → «at» demo_mem demo_alpha 2 = .error .domain_error) ∧
    «at» demo_mem demo_alpha demo_alpha.size = .error .domain_error ∧
    (2 < demo_alpha.size →
      ∃ c, «at» demo_mem demo_alpha 2 = .ok c ∧ index demo_mem demo_alpha 2 = .ok c) ∧
    «at» demo_mem ctor_default 2 = .error .domain_error) :=
  ⟨by decide, C3_at_checked demo_mem demo_alpha 2 (by decide)⟩

/-- C4: on every view the materialized string has length `size()`, its `k`-th character
equals `operator[](k)` for every `k < size()`, and it is the subsequence of the raw buffer,
in buffer order, of the characters at the positions where the predicate holds. -/
theorem C4_materialized_string (m : Mem) (v : filtered_string_view) (hv : Valid m v) :
    ∃ s, to_string m v = .ok s ∧ s.length = v.size ∧
      (∀ k, k < v.size → ∃ c, s[k]? = some c ∧ index m v k = .ok c) ∧
      s = ((raw m v).filter (accepts v.pred_)).map CharRef.val := by
  refine ⟨content m v, to_string_valid m v hv, ?_, fun k hk => ?_, rfl⟩
  · simp [content, size, hv.2]
  · obtain ⟨r, ref, -, -, -, -, h5, h6⟩ := index_valid m v k hv hk
    exact ⟨ref.val, h6, h5⟩

/-- C4 at the view over "a1b2c3" with "is alphabetic". -/
theorem C4_materialized_string_witness :
    Valid demo_mem demo_alpha ∧
    ∃ s, to_string demo_mem demo_alpha = .ok s ∧ s.length = demo_alpha.size ∧
      (∀ k, k < demo_alpha.size → ∃ c, s[k]? = some c ∧ index demo_mem demo_alpha k = .ok c) ∧
      s = ((raw demo_mem demo_alpha).filter (accepts demo_alpha.pred_)).map CharRef.val :=
  ⟨by decide, C4_materialized_string demo_mem demo_alpha (by decide)⟩

/-! ## Cursor movement -/

theorem skip_loop_spec (m : Mem) (pred : filter) (a len : Nat)
    (hret : ∀ j, j < len → returns pred ⟨a + j, load m (a + j)⟩ = true)
    (n r : Nat) (hn : len ≤ r + n) :
    ∃ r2, const_iterator.skip_loop m pred a len n r = .ok r2 ∧ r ≤ r2 ∧
      (r ≤ len → r2 ≤ len) ∧ (r2 < len → acc_at m pred a r2 = true) ∧
      ∀ j, r ≤ j → j < r2 → acc_at m pred a j = false := by
  induction n generalizing r with
  | zero =>
    refine ⟨r, rfl, Nat.le_refl _, fun h => h, fun h => ?_, fun j h1 h2 => ?_⟩ <;> omega
  | succ n ih =>
    unfold const_iterator.skip_loop
    by_cases hr : r < len
    · rw [if_pos hr]
      obtain ⟨b, hb⟩ := (returns_iff pred _).1 (hret r hr)
      rw [hb]
      cases b with
      | true =>
        refine ⟨r, rfl, Nat.le_refl _, fun h => h, fun _ => ?_, fun j h1 h2 => ?_⟩
        · exact accepts_true_of_ok_true pred _ hb
        · omega
      | false =>
        obtain ⟨r2, h1, h2, h3, h4, h5⟩ := ih (r + 1) (by omega)
        refine ⟨r2, h1, by omega, fun _ => h3 (by omega), h4, fun j hj1 hj2 => ?_⟩
        by_cases hjr : j = r
        · subst hjr
          exact accepts_false_of_ok_false pred _ hb
        · exact h5 j (by omega) hj2
    · rw [if_neg hr]
      refine ⟨r, rfl, Nat.le_refl _, fun h => h, fun h => ?_, fun j h1 h2 => ?_⟩ <;> omega

theorem dec_loop_spec (m : Mem) (pred : filter) (a len : Nat)
    (hret : ∀ j, j < len → returns pred ⟨a + j, load m (a + j)⟩ = true)
    (r : Nat) (hr : r < len) :
    ∃ r2, const_iterator.dec_loop m pred a r = .ok r2 ∧ r2 ≤ r ∧
      (r2 = 0 ∨ acc_at m pred a r2 = true) ∧
      ∀ j, r2 < j → j ≤ r → acc_at m pred a j = false := by
  induction r with
  | zero =>
    exact ⟨0, rfl, Nat.le_refl _, Or.inl rfl, fun j h1 h2 => by omega⟩
  | succ r ih =>
    unfold const_iterator.dec_loop
    obtain ⟨b, hb⟩ := (returns_iff pred _).1 (hret (r + 1) hr)
    rw [hb]
    cases b with
    | true =>
      exact ⟨r + 1, rfl, Nat.le_refl _, Or.inr (accepts_true_of_ok_true pred _ hb),
        fun j h1 h2 => by omega⟩
    | false =>
      obtain ⟨r2, h1, h2, h3, h4⟩ := ih (by omega)
      refine ⟨r2, h1, by omega, h3, fun j hj1 hj2 => ?_⟩
      by_cases hjr : j = r + 1
      · subst hjr
        exact accepts_false_of_ok_false pred _ hb
      · exact h4 j hj1 (by omega)

/-! ## Stretches of the raw buffer without a match -/

theorem filter_drop_skip {α : Type} (p : α → Bool) (l : List α) (d lo : Nat)
    (h : ∀ j, lo ≤ j → j < lo + d → ∀ x, l[j]? = some x → p x = false) :
    (l.drop lo).filter p = (l.drop (lo + d)).filter p := by
  induction d generalizing lo with
  | zero => rfl
  | succ d ih =>
    have hrec := ih (lo + 1) (fun j h1 h2 x hx => h j (by omega) (by omega) x hx)
    rw [show lo + (d + 1) = lo + 1 + d by omega, ← hrec]
    by_cases hlo : lo < l.length
    · rw [List.drop_eq_getElem_cons hlo, List.filter_cons,
        h lo (Nat.le_refl _) (by omega) _ (List.getElem?_eq_getElem hlo)]
      rfl
    · rw [List.drop_eq_nil_of_le (by omega), List.drop_eq_nil_of_le (by omega)]

theorem filter_take_skip {α : Type} (p : α → Bool) (l : List α) (d lo : Nat)
    (h : ∀ j, lo ≤ j → j < lo + d → ∀ x, l[j]? = some x → p x = false) :
    (l.take (lo + d)).filter p = (l.take lo).filter p := by
  induction d with
  | zero => rfl
  | succ d ih =>
    have hrec := ih (fun j h1 h2 x hx => h j h1 (by omega) x hx)
    rw [show lo + (d + 1) = lo + d + 1 by omega, List.take_succ, List.filter_append, hrec]
    cases hx : l[lo + d]? with
    | none => simp
    | some x =>
      have := h (lo + d) (by omega) (by omega) x hx
      simp [List.filter_cons, this]

theorem valid_returns_at (m : Mem) (v : filtered_string_view) (a : Nat)
    (hp : v.ptr_ = some a) (hv : Valid m v) :
    ∀ j, j < strlen m a → returns v.pred_ ⟨a + j, load m (a + j)⟩ = true := by
  intro j hj
  apply hv.1
  unfold raw
  rw [hp]
  exact List.getElem?_mem (refs_cstr_getElem? m a j hj)

theorem raw_some (m : Mem) (v : filtered_string_view) (a : Nat) (hp : v.ptr_ = some a) :
    raw m v = refs_from a (cstr m a) := by
  unfold raw
  rw [hp]

theorem raw_length (m : Mem) (v : filtered_string_view) (a : Nat) (hp : v.ptr_ = some a) :
    (raw m v).length = strlen m a := by
  rw [raw_some m v a hp, refs_cstr_length]

theorem raw_getElem? (m : Mem) (v : filtered_string_view) (a j : Nat) (hp : v.ptr_ = some a)
    (hj : j < strlen m a) : (raw m v)[j]? = some ⟨a + j, load m (a + j)⟩ := by
  rw [raw_some m v a hp, refs_cstr_getElem? m a j hj]

/-- A stretch of offsets without a match contributes nothing to the filtered content. -/
theorem raw_stretch (m : Mem) (v : filtered_string_view) (a lo hi : Nat)
    (hp : v.ptr_ = some a)
    (h : ∀ j, lo ≤ j → j < hi → acc_at m v.pred_ a j = false) :
    ∀ j, lo ≤ j → j < lo + (hi - lo) → ∀ x, (raw m v)[j]? = some x →
      accepts v.pred_ x = false := by
  intro j h1 h2 x hx
  have hj : j < strlen m a := by
    by_contra hcon
    rw [List.getElem?_eq_none (by rw [raw_length m v a hp]; omega)] at hx
    cases hx
  rw [raw_getElem? m v a j hp hj] at hx
  injection hx with hx
  subst hx
  exact h j h1 (by omega)

/-- The cursor constructor: the raw offset is moved forward to the first match at or after
it, or to the end of the buffer. -/
theorem cursor_ctor_spec (m : Mem) (objs : Objs) (t a r : Nat) (hp : (objs t).ptr_ = some a)
    (hv : Valid m (objs t)) (hr : r ≤ strlen m a) :
    ∃ r2, const_iterator.ctor m objs (some t) r = .ok ⟨some t, r2⟩ ∧ r ≤ r2 ∧
      r2 ≤ strlen m a ∧ (r2 < strlen m a → acc_at m (objs t).pred_ a r2 = true) ∧
      ∀ j, r ≤ j → j < r2 → acc_at m (objs t).pred_ a j = false := by
  obtain ⟨r2, h1, h2, h3, h4, h5⟩ := skip_loop_spec m (objs t).pred_ a (strlen m a)
    (valid_returns_at m (objs t) a hp hv) (strlen m a - r) r (by omega)
  refine ⟨r2, ?_, h2, h3 hr, h4, h5⟩
  simp only [const_iterator.ctor, hp, h1]

theorem cursor_inc_spec (m : Mem) (objs : Objs) (t a r : Nat) (hp : (objs t).ptr_ = some a)
    (hv : Valid m (objs t)) (hr : r < strlen m a) :
    ∃ r2, const_iterator.inc m objs ⟨some t, r⟩ = .ok ⟨some t, r2⟩ ∧ r < r2 ∧
      r2 ≤ strlen m a ∧ (r2 < strlen m a → acc_at m (objs t).pred_ a r2 = true) ∧
      ∀ j, r < j → j < r2 → acc_at m (objs t).pred_ a j = false := by
  obtain ⟨r2, h1, h2, h3, h4, h5⟩ := skip_loop_spec m (objs t).pred_ a (strlen m a)
    (valid_returns_at m (objs t) a hp hv) (strlen m a - (r + 1)) (r + 1) (by omega)
  refine ⟨r2, ?_, by omega, h3 (by omega), h4, fun j hj1 hj2 => h5 j (by omega) hj2⟩
  simp only [const_iterator.inc, hp, h1]

/-- The decrement of a cursor on a view with a buffer, from the result of its loop. -/
theorem dec_of_loop (m : Mem) (objs : Objs) (it : const_iterator) (t a r2 : Nat)
    (hf : it.fsv_ = some t) (hp : (objs t).ptr_ = some a) (w : Nat)
    (hwrap : (it.raw_pos_ + SIZE_MOD - 1) % SIZE_MOD = w)
    (h1 : const_iterator.dec_loop m (objs t).pred_ a w = .ok r2) :
    const_iterator.dec m objs it = .ok ⟨some t, r2⟩ := by
  unfold const_iterator.dec
  rw [hwrap]
  simp only [hf, hp, h1]

theorem cursor_dec_spec (m : Mem) (objs : Objs) (t a r : Nat) (hp : (objs t).ptr_ = some a)
    (hv : Valid m (objs t)) (hm : m.length < SIZE_MOD) (hr0 : 0 < r) (hr : r ≤ strlen m a) :
    ∃ r2, const_iterator.dec m objs ⟨some t, r⟩ = .ok ⟨some t, r2⟩ ∧ r2 < r ∧
      (r2 = 0 ∨ acc_at m (objs t).pred_ a r2 = true) ∧
      ∀ j, r2 < j → j < r → acc_at m (objs t).pred_ a j = false := by
  have hlen := strlen_le m a
  have hwrap : (r + SIZE_MOD - 1) % SIZE_MOD = r - 1 := by
    have : r + SIZE_MOD - 1 = (r - 1) + SIZE_MOD := by omega
    rw [this, Nat.add_mod_right, Nat.mod_eq_of_lt (by omega)]
  obtain ⟨r2, h1, h2, h3, h4⟩ := dec_loop_spec m (objs t).pred_ a (strlen m a)
    (valid_returns_at m (objs t) a hp hv) (r - 1) (by omega)
  exact ⟨r2, dec_of_loop m objs ⟨some t, r⟩ t a r2 rfl hp (r - 1) hwrap h1, by omega, h3,
    fun j hj1 hj2 => h4 j hj1 (by omega)⟩

theorem begin_spec (m : Mem) (objs : Objs) (t a : Nat) (hp : (objs t).ptr_ = some a)
    (hv : Valid m (objs t)) :
    ∃ r0, begin m objs t = .ok ⟨some t, r0⟩ ∧ r0 ≤ strlen m a ∧
      (r0 < strlen m a → acc_at m (objs t).pred_ a r0 = true) ∧
      ∀ j, j < r0 → acc_at m (objs t).pred_ a j = false := by
  obtain ⟨r0, h1, -, h3, h4, h5⟩ := cursor_ctor_spec m objs t a 0 hp hv (Nat.zero_le _)
  exact ⟨r0, h1, h3, h4, fun j hj => h5 j (Nat.zero_le _) hj⟩

theorem end_spec (m : Mem) (objs : Objs) (t a : Nat) (hp : (objs t).ptr_ = some a) :
    «end» m objs t = .ok ⟨some t, strlen m a⟩ := by
  simp only [«end», const_iterator.ctor, hp, Nat.sub_self, const_iterator.skip_loop]

theorem begin_null (m : Mem) (objs : Objs) (t : Nat) (hp : (objs t).ptr_ = none) :
    begin m objs t = .ok ⟨some t, 0⟩ := by
  simp only [begin, const_iterator.ctor, hp]

theorem end_null (m : Mem) (objs : Objs) (t : Nat) (hp : (objs t).ptr_ = none) :
    «end» m objs t = .ok ⟨some t, 0⟩ := by
  simp only [«end», const_iterator.ctor, hp]

theorem valid_null (m : Mem) (v : filtered_string_view) (hp : v.ptr_ = none)
    (hv : Valid m v) : v.len_ = 0 ∧ content m v = [] ∧ hits m v = [] := by
  have h := hv.2
  unfold content
  unfold hits raw at h ⊢
  rw [hp] at h ⊢
  simpa using h

/-! ## Forward traversal -/

theorem raw_drop_skip (m : Mem) (v : filtered_string_view) (a lo hi : Nat)
    (hp : v.ptr_ = some a) (hle : lo ≤ hi)
    (h : ∀ j, lo ≤ j → j < hi → acc_at m v.pred_ a j = false) :
    ((raw m v).drop lo).filter (accepts v.pred_) = ((raw m v).drop hi).filter (accepts v.pred_) := by
  have := filter_drop_skip (accepts v.pred_) (raw m v) (hi - lo) lo (raw_stretch m v a lo hi hp h)
  rwa [show lo + (hi - lo) = hi by omega] at this

theorem raw_take_skip (m : Mem) (v : filtered_string_view) (a lo hi : Nat)
    (hp : v.ptr_ = some a) (hle : lo ≤ hi)
    (h : ∀ j, lo ≤ j → j < hi → acc_at m v.pred_ a j = false) :
    ((raw m v).take hi).filter (accepts v.pred_) = ((raw m v).take lo).filter (accepts v.pred_) := by
  have := filter_take_skip (accepts v.pred_) (raw m v) (hi - lo) lo (raw_stretch m v a lo hi hp h)
  rwa [show lo + (hi - lo) = hi by omega] at this

theorem raw_drop_head (m : Mem) (v : filtered_string_view) (a r : Nat)
    (hp : v.ptr_ = some a) (hr : r < strlen m a) (hacc : acc_at m v.pred_ a r = true) :
    ((raw m v).drop r).filter (accepts v.pred_)
      = ⟨a + r, load m (a + r)⟩ :: ((raw m v).drop (r + 1)).filter (accepts v.pred_) := by
  have hlt : r < (raw m v).length := by rw [raw_length m v a hp]; exact hr
  have hget : (raw m v)[r] = ⟨a + r, load m (a + r)⟩ := by
    have := raw_getElem? m v a r hp hr
    rw [List.getElem?_eq_getElem hlt] at this
    exact Option.some.inj this
  rw [List.drop_eq_getElem_cons hlt, hget, List.filter_cons]
  unfold acc_at at hacc
  rw [hacc]
  rfl

theorem raw_take_last (m : Mem) (v : filtered_string_view) (a r : Nat)
    (hp : v.ptr_ = some a) (hr : r < strlen m a) :
    ((raw m v).take (r + 1)).filter (accepts v.pred_)
      = ((raw m v).take r).filter (accepts v.pred_)
        ++ (if acc_at m v.pred_ a r = true then [⟨a + r, load m (a + r)⟩] else []) := by
  rw [List.take_succ, List.filter_append, raw_getElem? m v a r hp hr]
  unfold acc_at
  cases h : accepts v.pred_ ⟨a + r, load m (a + r)⟩ <;> simp [List.filter_cons, h]

theorem raw_drop_end (m : Mem) (v : filtered_string_view) (a r : Nat)
    (hp : v.ptr_ = some a) (hr : strlen m a ≤ r) : (raw m v).drop r = [] := by
  apply List.drop_eq_nil_of_le
  rw [raw_length m v a hp]
  exact hr

/-- The state of the forward traversal after `k` increments: the cursor rests on a match or
at the end, and what is left to visit is the content from rank `k` on. -/
theorem forward_state (m : Mem) (objs : Objs) (t a r0 : Nat) (hp : (objs t).ptr_ = some a)
    (hv : Valid m (objs t))
    (h0 : r0 ≤ strlen m a) (h1 : r0 < strlen m a → acc_at m (objs t).pred_ a r0 = true)
    (h2 : ∀ j, j < r0 → acc_at m (objs t).pred_ a j = false) (k : Nat)
    (hk : k ≤ (hits m (objs t)).length) :
    ∃ r, inc_n m objs k ⟨some t, r0⟩ = .ok ⟨some t, r⟩ ∧ r ≤ strlen m a ∧
      (r < strlen m a → acc_at m (objs t).pred_ a r = true) ∧
      ((raw m (objs t)).drop r).filter (accepts (objs t).pred_) = (hits m (objs t)).drop k := by
  induction k with
  | zero =>
    refine ⟨r0, rfl, h0, h1, ?_⟩
    rw [← raw_drop_skip m (objs t) a 0 r0 hp (Nat.zero_le _) (fun j _ hj => h2 j hj)]
    rfl
  | succ k ih =>
    obtain ⟨r, hr1, hr2, hr3, hr4⟩ := ih (by omega)
    have hrlt : r < strlen m a := by
      by_contra hcon
      rw [raw_drop_end m (objs t) a r hp (by omega)] at hr4
      have : ((hits m (objs t)).drop k).length = 0 := by rw [← hr4]; rfl
      rw [List.length_drop] at this
      omega
    obtain ⟨r2, hi1, hi2, hi3, hi4, hi5⟩ := cursor_inc_spec m objs t a r hp hv hrlt
    refine ⟨r2, ?_, hi3, hi4, ?_⟩
    · simp only [inc_n, hr1, hi1]
    · rw [raw_drop_head m (objs t) a r hp hrlt (hr3 hrlt),
        raw_drop_skip m (objs t) a (r + 1) r2 hp (by omega) (fun j hj1 hj2 => hi5 j (by omega) hj2)]
        at hr4
      have hdrop : (hits m (objs t)).drop (k + 1) = ((hits m (objs t)).drop k).tail := by
        rw [List.tail_drop]
      rw [hdrop, ← hr4]
      rfl

/-- While matches are left, the cursor is before the end and rests on the match of rank `k`. -/
theorem forward_state_at (m : Mem) (v : filtered_string_view) (a r k : Nat)
    (hp : v.ptr_ = some a) (hr : r ≤ strlen m a)
    (hacc : r < strlen m a → acc_at m v.pred_ a r = true)
    (hd : ((raw m v).drop r).filter (accepts v.pred_) = (hits m v).drop k)
    (hk : k < (hits m v).length) :
    r < strlen m a ∧ (content m v)[k]? = some (load m (a + r)) := by
  have hrlt : r < strlen m a := by
    by_contra hcon
    rw [raw_drop_end m v a r hp (by omega)] at hd
    have : ((hits m v).drop k).length = 0 := by rw [← hd]; rfl
    rw [List.length_drop] at this
    omega
  refine ⟨hrlt, ?_⟩
  rw [raw_drop_head m v a r hp hrlt (hacc hrlt)] at hd
  have h0 : ((hits m v).drop k)[0]? = some ⟨a + r, load m (a + r)⟩ := by rw [← hd]; simp
  rw [List.getElem?_drop] at h0
  simp only [Nat.add_zero] at h0
  simp [content, List.getElem?_map, h0]

/-- When no match is left, the cursor is at the end. -/
theorem forward_state_end (m : Mem) (v : filtered_string_view) (a r : Nat)
    (hp : v.ptr_ = some a) (hr : r ≤ strlen m a)
    (hacc : r < strlen m a → acc_at m v.pred_ a r = true)
    (hd : ((raw m v).drop r).filter (accepts v.pred_) = []) : r = strlen m a := by
  by_contra hcon
  have hrlt : r < strlen m a := by omega
  rw [raw_drop_head m v a r hp hrlt (hacc hrlt)] at hd
  cases hd

theorem output_loop_spec (m : Mem) (objs : Objs) (t a : Nat) (hp : (objs t).ptr_ = some a)
    (hv : Valid m (objs t)) (n r : Nat) (os : List Char)
    (hr : r ≤ strlen m a) (hacc : r < strlen m a → acc_at m (objs t).pred_ a r = true)
    (hn : strlen m a + 1 ≤ r + n) :
    output_loop m objs ⟨some t, strlen m a⟩ n ⟨some t, r⟩ os
      = some (.ok (os ++ (((raw m (objs t)).drop r).filter (accepts (objs t).pred_)).map
          CharRef.val)) := by
  induction n generalizing r os with
  | zero => omega
  | succ n ih =>
    unfold output_loop
    by_cases hre : r = strlen m a
    · subst hre
      rw [raw_drop_end m (objs t) a _ hp (Nat.le_refl _)]
      simp [const_iterator.ne, const_iterator.eq]
    · have hrlt : r < strlen m a := by omega
      obtain ⟨r2, hi1, hi2, hi3, hi4, hi5⟩ := cursor_inc_spec m objs t a r hp hv hrlt
      have hne : const_iterator.ne ⟨some t, r⟩ ⟨some t, strlen m a⟩ = true := by
        simp [const_iterator.ne, const_iterator.eq, hre]
      rw [if_pos hne]
      simp only [const_iterator.deref, hp, hi1]
      rw [ih r2 _ hi3 hi4 (by omega), raw_drop_head m (objs t) a r hp hrlt (hacc hrlt),
        raw_drop_skip m (objs t) a (r + 1) r2 hp (by omega)
          (fun j hj1 hj2 => hi5 j (by omega) hj2)]
      simp

/-- C5: on every view, applying `operator++` from `begin()` reaches `end()` after exactly
`size()` increments and not before; the characters dereferenced before each increment are,
in order, the characters of the materialized string; and the output operator, which runs
this loop, appends the materialized string to the stream. -/
theorem C5_forward_iteration (m : Mem) (objs : Objs) (t : Nat) (hv : Valid m (objs t)) :
    ∃ b e s, begin m objs t = .ok b ∧ «end» m objs t = .ok e ∧
      to_string m (objs t) = .ok s ∧
      inc_n m objs (objs t).size b = .ok e ∧
      (∀ k, k < (objs t).size → ∃ it c, inc_n m objs k b = .ok it ∧
        const_iterator.ne it e = true ∧ const_iterator.deref m objs it = some c ∧
        s[k]? = some c) ∧
      ∀ os, operator_out m objs os t = some (.ok (os ++ s)) := by
  cases hp : (objs t).ptr_ with
  | none =>
    obtain ⟨hlen, hcont, -⟩ := valid_null m (objs t) hp hv
    refine ⟨⟨some t, 0⟩, ⟨some t, 0⟩, [], begin_null m objs t hp, end_null m objs t hp, ?_,
      ?_, ?_, ?_⟩
    · rw [to_string_valid m (objs t) hv, hcont]
    · simp [size, hlen, inc_n]
    · intro k hk
      simp [size, hlen] at hk
    · intro os
      simp [operator_out, begin_null m objs t hp, end_null m objs t hp, output_loop,
        const_iterator.ne, const_iterator.eq]
  | some a =>
    obtain ⟨r0, hb, h0, h1, h2⟩ := begin_spec m objs t a hp hv
    have he := end_spec m objs t a hp
    have hsz : (objs t).size = (hits m (objs t)).length := hv.2
    refine ⟨⟨some t, r0⟩, ⟨some t, strlen m a⟩, content m (objs t), hb, he,
      to_string_valid m (objs t) hv, ?_, ?_, ?_⟩
    · obtain ⟨r, hr1, hr2, hr3, hr4⟩ :=
        forward_state m objs t a r0 hp hv h0 h1 h2 (objs t).size (by omega)
      rw [hsz, List.drop_length] at hr4
      rw [hr1, forward_state_end m (objs t) a r hp hr2 hr3 hr4]
    · intro k hk
      obtain ⟨r, hr1, hr2, hr3, hr4⟩ :=
        forward_state m objs t a r0 hp hv h0 h1 h2 k (by omega)
      obtain ⟨hrlt, hc⟩ := forward_state_at m (objs t) a r k hp hr2 hr3 hr4 (by omega)
      refine ⟨⟨some t, r⟩, load m (a + r), hr1, ?_, ?_, hc⟩
      · have : r ≠ strlen m a := by omega
        simp [const_iterator.ne, const_iterator.eq, this]
      · simp [const_iterator.deref, hp]
    · intro os
      simp only [operator_out, hb, he]
      rw [output_loop_spec m objs t a hp hv _ r0 os h0 h1 (by omega),
        ← raw_drop_skip m (objs t) a 0 r0 hp (Nat.zero_le _) (fun j _ hj => h2 j hj)]
      rfl

/-- C5 at the view over "a1b2c3" with "is alphabetic". -/
theorem C5_forward_iteration_witness :
    Valid demo_mem demo_alpha ∧
    ∃ b e s, begin demo_mem (fun _ => demo_alpha) 0 = .ok b ∧
      «end» demo_mem (fun _ => demo_alpha) 0 = .ok e ∧
      to_string demo_mem demo_alpha = .ok s ∧
      inc_n demo_mem (fun _ => demo_alpha) demo_alpha.size b = .ok e ∧
      (∀ k, k < demo_alpha.size → ∃ it c, inc_n demo_mem (fun _ => demo_alpha) k b = .ok it ∧
        const_iterator.ne it e = true ∧
        const_iterator.deref demo_mem (fun _ => demo_alpha) it = some c ∧
        s[k]? = some c) ∧
      ∀ os, operator_out demo_mem (fun _ => demo_alpha) os 0 = some (.ok (os ++ s)) :=
  ⟨by decide, C5_forward_iteration demo_mem (fun _ => demo_alpha) 0 (by decide)⟩

/-! ## Reverse traversal -/

theorem take_succ_eq_append_singleton {α : Type} (l X : List α) (y : α) (n : Nat)
    (hn : n < l.length) (h : l.take (n + 1) = X ++ [y]) : X = l.take n ∧ l[n]? = some y := by
  rw [List.take_succ, List.getElem?_eq_getElem hn] at h
  simp only [Option.toList_some] at h
  obtain ⟨h1, h2⟩ := List.append_inj' h rfl
  refine ⟨h1.symm, ?_⟩
  rw [List.getElem?_eq_getElem hn]
  simpa using h2

theorem raw_take_before_begin (m : Mem) (v : filtered_string_view) (a r0 : Nat)
    (hp : v.ptr_ = some a) (h2 : ∀ j, j < r0 → acc_at m v.pred_ a j = false) :
    ((raw m v).take r0).filter (accepts v.pred_) = [] := by
  rw [raw_take_skip m v a 0 r0 hp (Nat.zero_le _) (fun j _ hj => h2 j hj)]
  rfl

theorem raw_take_nonempty (m : Mem) (v : filtered_string_view) (a r0 r : Nat)
    (hp : v.ptr_ = some a) (h0 : r0 < r) (h1 : r0 < strlen m a)
    (hacc : acc_at m v.pred_ a r0 = true) :
    ((raw m v).take r).filter (accepts v.pred_) ≠ [] := by
  intro hnil
  rw [List.filter_eq_nil_iff] at hnil
  have hmem : (⟨a + r0, load m (a + r0)⟩ : CharRef) ∈ (raw m v).take r := by
    apply List.getElem?_mem (n := r0)
    rw [List.getElem?_take_of_lt h0]
    exact raw_getElem? m v a r0 hp h1
  exact hnil _ hmem hacc

/-- One step of the reverse traversal from a base cursor with matches before it: the
decremented cursor rests on the last match before the base. -/
theorem reverse_step (m : Mem) (objs : Objs) (t a r n : Nat) (hp : (objs t).ptr_ = some a)
    (hv : Valid m (objs t)) (hm : m.length < SIZE_MOD) (hr : r ≤ strlen m a)
    (hn : n < (hits m (objs t)).length)
    (ht : ((raw m (objs t)).take r).filter (accepts (objs t).pred_)
      = (hits m (objs t)).take (n + 1)) :
    ∃ r2, const_iterator.dec m objs ⟨some t, r⟩ = .ok ⟨some t, r2⟩ ∧ r2 < r ∧
      acc_at m (objs t).pred_ a r2 = true ∧
      ((raw m (objs t)).take r2).filter (accepts (objs t).pred_) = (hits m (objs t)).take n ∧
      (hits m (objs t))[n]? = some ⟨a + r2, load m (a + r2)⟩ := by
  have hne : ((raw m (objs t)).take r).filter (accepts (objs t).pred_) ≠ [] := by
    rw [ht]
    intro hnil
    have := congrArg List.length hnil
    rw [List.length_take, List.length_nil] at this
    omega
  have hr0 : 0 < r := by
    by_contra hcon
    have : r = 0 := by omega
    subst this
    exact hne rfl
  obtain ⟨r2, hd1, hd2, hd3, hd4⟩ := cursor_dec_spec m objs t a r hp hv hm hr0 hr
  have hsplit := raw_take_skip m (objs t) a (r2 + 1) r hp (by omega)
    (fun j hj1 hj2 => hd4 j (by omega) hj2)
  rw [raw_take_last m (objs t) a r2 hp (by omega)] at hsplit
  have hacc : acc_at m (objs t).pred_ a r2 = true := by
    cases hd3 with
    | inr h => exact h
    | inl h =>
      by_contra hcon
      rw [if_neg hcon, h] at hsplit
      exact hne hsplit
  rw [if_pos hacc] at hsplit
  rw [hsplit] at ht
  obtain ⟨hx, hy⟩ := take_succ_eq_append_singleton (hits m (objs t)) _ _ n hn ht.symm
  exact ⟨r2, hd1, hd2, hacc, hx, hy⟩

/-- The state of the reverse traversal after `k` steps: the base cursor is not before
`begin()`, and what is left to visit is the content up to rank `size() - k`. -/
theorem reverse_state (m : Mem) (objs : Objs) (t a r0 : Nat) (hp : (objs t).ptr_ = some a)
    (hv : Valid m (objs t)) (hm : m.length < SIZE_MOD)
    (h2 : ∀ j, j < r0 → acc_at m (objs t).pred_ a j = false) (h0 : r0 ≤ strlen m a) (k : Nat)
    (hk : k ≤ (hits m (objs t)).length) :
    ∃ r, rinc_n m objs k ⟨⟨some t, strlen m a⟩⟩ = .ok ⟨⟨some t, r⟩⟩ ∧ r0 ≤ r ∧
      r ≤ strlen m a ∧
      ((raw m (objs t)).take r).filter (accepts (objs t).pred_)
        = (hits m (objs t)).take ((hits m (objs t)).length - k) := by
  induction k with
  | zero =>
    refine ⟨strlen m a, rfl, h0, Nat.le_refl _, ?_⟩
    rw [Nat.sub_zero, List.take_length, ← raw_length m (objs t) a hp, List.take_length]
    rfl
  | succ k ih =>
    obtain ⟨r, hr1, hr2, hr3, hr4⟩ := ih (by omega)
    have hidx : (hits m (objs t)).length - k = ((hits m (objs t)).length - (k + 1)) + 1 := by
      omega
    rw [hidx] at hr4
    obtain ⟨r2, hd1, hd2, hd3, hd4, -⟩ := reverse_step m objs t a r
      ((hits m (objs t)).length - (k + 1)) hp hv hm hr3 (by omega) hr4
    refine ⟨r2, ?_, ?_, by omega, hd4⟩
    · simp only [rinc_n, hr1, reverse_iterator.inc, hd1]
    · by_contra hcon
      rw [h2 r2 (by omega)] at hd3
      cases hd3

/-- C6: on every view (whatever the first raw character, with or without matches), stepping
a reverse cursor from `rbegin()` reaches `rend()` after exactly `size()` steps and not
before, and the characters it dereferences (each through one `operator--` on a copy of the
base cursor) are the characters of the materialized string in reverse order.  Raw offsets
are `std::size_t` values, so memory is shorter than `2 ^ 64`. -/
theorem C6_reverse_iteration (m : Mem) (objs : Objs) (t : Nat) (hm : m.length < SIZE_MOD)
    (hv : Valid m (objs t)) :
    ∃ rb re s, rbegin m objs t = .ok rb ∧ rend m objs t = .ok re ∧
      to_string m (objs t) = .ok s ∧
      rinc_n m objs (objs t).size rb = .ok re ∧
      (∀ k, k < (objs t).size → ∃ it c, rinc_n m objs k rb = .ok it ∧
        reverse_iterator.ne it re = true ∧ reverse_iterator.deref m objs it = .ok (some c) ∧
        s.reverse[k]? = some c) := by
  cases hp : (objs t).ptr_ with
  | none =>
    obtain ⟨hlen, hcont, -⟩ := valid_null m (objs t) hp hv
    refine ⟨⟨⟨some t, 0⟩⟩, ⟨⟨some t, 0⟩⟩, [], ?_, ?_, ?_, ?_, ?_⟩
    · simp only [rbegin, end_null m objs t hp]
    · simp only [rend, begin_null m objs t hp]
    · rw [to_string_valid m (objs t) hv, hcont]
    · simp [size, hlen, rinc_n]
    · intro k hk
      simp [size, hlen] at hk
  | some a =>
    obtain ⟨r0, hb, h0, h1, h2⟩ := begin_spec m objs t a hp hv
    have he := end_spec m objs t a hp
    have hsz : (objs t).size = (hits m (objs t)).length := hv.2
    refine ⟨⟨⟨some t, strlen m a⟩⟩, ⟨⟨some t, r0⟩⟩, content m (objs t), ?_, ?_,
      to_string_valid m (objs t) hv, ?_, ?_⟩
    · simp only [rbegin, he]
    · simp only [rend, hb]
    · obtain ⟨r, hr1, hr2, hr3, hr4⟩ :=
        reverse_state m objs t a r0 hp hv hm h2 h0 (objs t).size (by omega)
      rw [hsz, Nat.sub_self, List.take_zero] at hr4
      have hrr : r = r0 := by
        by_contra hcon
        exact raw_take_nonempty m (objs t) a r0 r hp (by omega) (by omega) (h1 (by omega)) hr4
      rw [hr1, hrr]
    · intro k hk
      obtain ⟨r, hr1, hr2, hr3, hr4⟩ :=
        reverse_state m objs t a r0 hp hv hm h2 h0 k (by omega)
      have hidx : (hits m (objs t)).length - k = ((hits m (objs t)).length - (k + 1)) + 1 := by
        omega
      rw [hidx] at hr4
      obtain ⟨r2, hd1, hd2, hd3, hd4, hd5⟩ := reverse_step m objs t a r
        ((hits m (objs t)).length - (k + 1)) hp hv hm hr3 (by omega) hr4
      refine ⟨⟨⟨some t, r⟩⟩, load m (a + r2), hr1, ?_, ?_, ?_⟩
      · have hne : r ≠ r0 := by
          intro heq
          subst heq
          have h3 := raw_take_before_begin m (objs t) a r hp h2
          rw [hr4] at h3
          have := congrArg List.length h3
          rw [List.length_take, List.length_nil] at this
          omega
        simp [reverse_iterator.ne, const_iterator.ne, const_iterator.eq, hne]
      · simp [reverse_iterator.deref, hd1, const_iterator.deref, hp]
      · have hklt : k < (content m (objs t)).length := by
          simp only [content, List.length_map]
          omega
        rw [List.getElem?_reverse hklt]
        simp only [content, List.length_map, List.getElem?_map]
        rw [show (hits m (objs t)).length - 1 - k = (hits m (objs t)).length - (k + 1) by omega,
          hd5]
        rfl

/-- C6 at the view over ",,a,,b," with "is alphabetic", whose first raw character does not
satisfy the predicate. -/
theorem C6_reverse_iteration_witness :
    (demo_mem.length < SIZE_MOD ∧ Valid demo_mem demo_letters) ∧
    ∃ rb re s, rbegin demo_mem (fun _ => demo_letters) 0 = .ok rb ∧
      rend demo_mem (fun _ => demo_letters) 0 = .ok re ∧
      to_string demo_mem demo_letters = .ok s ∧
      rinc_n demo_mem (fun _ => demo_letters) demo_letters.size rb = .ok re ∧
      (∀ k, k < demo_letters.size → ∃ it c,
        rinc_n demo_mem (fun _ => demo_letters) k rb = .ok it ∧
        reverse_iterator.ne it re = true ∧
        reverse_iterator.deref demo_mem (fun _ => demo_letters) it = .ok (some c) ∧
        s.reverse[k]? = some c) :=
  ⟨⟨by decide, by decide⟩,
    C6_reverse_iteration demo_mem (fun _ => demo_letters) 0 (by decide) (by decide)⟩

/-! ## The predicate synthesized by substr -/

/-- Filtering by "matches and has its rank among the matches in `[lo, hi)`" cuts the window
`[lo, hi)` out of the list of matches. -/
theorem filter_window {α : Type} (p q : α → Bool) (lo hi : Nat) (l : List α)
    (h : ∀ j x, l[j]? = some x →
      q x = (p x && (decide (lo ≤ ((l.take j).filter p).length)
        && decide (((l.take j).filter p).length < hi)))) :
    l.filter q = ((l.filter p).drop lo).take (hi - lo) := by
  induction l using List.reverseRecOn with
  | nil => simp
  | append_singleton l x ih =>
    have hprev : ∀ j y, l[j]? = some y →
        q y = (p y && (decide (lo ≤ ((l.take j).filter p).length)
          && decide (((l.take j).filter p).length < hi))) := by
      intro j y hy
      have hj : j < l.length := by
        by_contra hcon
        rw [List.getElem?_eq_none (by omega)] at hy
        cases hy
      have := h j y (by rw [List.getElem?_append_left hj]; exact hy)
      rwa [List.take_append_of_le_length (by omega)] at this
    have hlast := h l.length x (by simp)
    rw [List.take_left] at hlast
    rw [List.filter_append, List.filter_append, ih hprev]
    cases hpx : p x with
    | false =>
      rw [hpx] at hlast
      simp only [Bool.false_and] at hlast
      simp [List.filter_cons, hpx, hlast]
    | true =>
      rw [hpx] at hlast
      simp only [Bool.true_and] at hlast
      simp only [List.filter_cons, hpx, if_true, List.filter_nil]
      by_cases hlo : lo ≤ (l.filter p).length
      · rw [List.drop_append_of_le_length hlo]
        by_cases hhi : (l.filter p).length < hi
        · have hq : q x = true := by simp [hlast, hlo, hhi]
          rw [hq]
          simp only [if_true]
          rw [List.take_of_length_le (by rw [List.length_drop]; omega),
            List.take_of_length_le (by simp [List.length_drop]; omega)]
        · have hq : q x = false := by simp [hlast, hhi]
          rw [hq]
          simp only [Bool.false_eq_true, if_false, List.append_nil]
          rw [List.take_append_of_le_length (by rw [List.length_drop]; omega)]
      · have hq : q x = false := by simp [hlast, hlo]
        rw [hq]
        simp only [Bool.false_eq_true, if_false, List.append_nil]
        rw [List.drop_eq_nil_of_le (by omega), List.drop_eq_nil_of_le (by simp; omega)]

theorem new_pred_loop_spec (orig : filter) (pos end_ : Nat) (cells : List Char)
    (p fi d : Nat) (hd : d < (upto_nul cells).length)
    (hret : ∀ r ∈ (refs_from p (upto_nul cells)).take d, returns orig r = true) :
    new_pred_loop orig pos end_ (p + d) cells p fi
      = .ok (decide (pos ≤ fi + (((refs_from p (upto_nul cells)).take d).filter
            (accepts orig)).length)
          && decide (fi + (((refs_from p (upto_nul cells)).take d).filter
            (accepts orig)).length < end_)) := by
  induction cells generalizing p fi d with
  | nil => simp [upto_nul_nil] at hd
  | cons ch rest ih =>
    by_cases hc : ch = NUL
    · subst hc
      simp [upto_nul_cons_nul] at hd
    · rw [upto_nul_cons ch rest hc] at hd hret ⊢
      unfold new_pred_loop
      rw [if_pos ⟨by omega, hc⟩]
      cases d with
      | zero => simp
      | succ d =>
        rw [if_neg (by omega)]
        simp only [refs_from, List.take_succ_cons, List.mem_cons, forall_eq_or_imp] at hret
        obtain ⟨h0, hrest⟩ := hret
        obtain ⟨b, hb⟩ := (returns_iff orig _).1 h0
        simp only [hb, refs_from, List.take_succ_cons]
        have hd2 : d < (upto_nul rest).length := by simpa using hd
        rw [show p + (d + 1) = p + 1 + d by omega, ih (p + 1) _ d hd2 hrest]
        cases b
        · simp [List.filter_cons, accepts_false_of_ok_false orig _ hb]
        · simp [List.filter_cons, accepts_true_of_ok_true orig _ hb]
          congr 2 <;> congr 1 <;> omega

/-- On a character of the raw buffer the synthesized predicate returns, and accepts exactly
the matches of the original predicate whose rank lies in `[pos, end)`. -/
theorem new_pred_at (m : Mem) (v : filtered_string_view) (a pos end_ j : Nat)
    (hp : v.ptr_ = some a) (hv : Valid m v) (hj : j < strlen m a) :
    new_pred m (some a) v.pred_ pos end_ ⟨a + j, load m (a + j)⟩
      = .ok (acc_at m v.pred_ a j
          && (decide (pos ≤ rank m v j) && decide (rank m v j < end_))) := by
  have hret := valid_returns_at m v a hp hv
  obtain ⟨b, hb⟩ := (returns_iff v.pred_ _).1 (hret j hj)
  unfold new_pred
  rw [hb]
  cases b with
  | false => simp [acc_at, accepts_false_of_ok_false v.pred_ _ hb]
  | true =>
    simp only
    have hloop := new_pred_loop_spec v.pred_ pos end_ (m.drop a) a 0 j hj (by
      intro r hr
      apply hv.1
      rw [raw_some m v a hp, cstr_eq]
      exact List.mem_of_mem_take hr)
    rw [hloop]
    simp [acc_at, accepts_true_of_ok_true v.pred_ _ hb, rank, raw_some m v a hp, cstr_eq]

theorem raw_congr_ptr (m : Mem) (v w : filtered_string_view) (h : w.ptr_ = v.ptr_) :
    raw m w = raw m v := by
  unfold raw
  rw [h]

theorem hits_of_ptr (m : Mem) (w v : filtered_string_view) (h : w.ptr_ = v.ptr_) :
    hits m w = (raw m v).filter (accepts w.pred_) := by
  unfold hits
  rw [raw_congr_ptr m v w h]

theorem raw_elem (m : Mem) (v : filtered_string_view) (a j : Nat) (x : CharRef)
    (hp : v.ptr_ = some a) (hx : (raw m v)[j]? = some x) :
    j < strlen m a ∧ x = ⟨a + j, load m (a + j)⟩ := by
  have hj : j < strlen m a := by
    by_contra hcon
    rw [List.getElem?_eq_none (by rw [raw_length m v a hp]; omega)] at hx
    cases hx
  rw [raw_getElem? m v a j hp hj] at hx
  exact ⟨hj, (Option.some.inj hx).symm⟩

/-- The non-empty branch of `substr`: the result is a valid view over the same raw buffer
whose matches are the matches of the source with rank in `[pos, end)`. -/
theorem substr_window (m : Mem) (v : filtered_string_view) (pos : Nat) (count : Option Nat)
    (hv : Valid m v) (hpos : pos < v.size) (hc : count ≠ some 0) :
    ∃ w, substr m v pos count = .ok w ∧ Valid m w ∧ w.data = v.data ∧
      (∀ j x, (raw m v)[j]? = some x →
        accepts w.pred_ x = (accepts v.pred_ x
          && (decide (pos ≤ rank m v j) && decide (rank m v j < window_end v pos count)))) ∧
      hits m w = ((hits m v).drop pos).take (window_end v pos count - pos) := by
  cases hp : v.ptr_ with
  | none =>
    have := (valid_null m v hp hv).1
    unfold size at hpos
    omega
  | some a =>
    have hat : ∀ j x, (raw m v)[j]? = some x →
        new_pred m (some a) v.pred_ pos (window_end v pos count) x
          = .ok (accepts v.pred_ x
            && (decide (pos ≤ rank m v j) && decide (rank m v j < window_end v pos count))) := by
      intro j x hx
      obtain ⟨hj, hxe⟩ := raw_elem m v a j x hp hx
      subst hxe
      exact new_pred_at m v a pos (window_end v pos count) j hp hv hj
    have hretw : ∀ r ∈ raw m ⟨some a, 0, new_pred m (some a) v.pred_ pos (window_end v pos count)⟩,
        returns (new_pred m (some a) v.pred_ pos (window_end v pos count)) r = true := by
      intro r hr
      rw [raw_congr_ptr m v _ hp.symm] at hr
      obtain ⟨j, hj⟩ := List.mem_iff_getElem?.1 hr
      exact (returns_iff _ _).2 ⟨_, hat j r hj⟩
    have hctor := ctor_of_returns m (some a) _ hretw
    have hacc : ∀ j x, (raw m v)[j]? = some x →
        accepts (new_pred m (some a) v.pred_ pos (window_end v pos count)) x
          = (accepts v.pred_ x
            && (decide (pos ≤ rank m v j) && decide (rank m v j < window_end v pos count))) := by
      intro j x hx
      have hx2 := hat j x hx
      unfold accepts at hx2 ⊢
      rw [hx2]
      cases (match v.pred_ x with
        | .ok true => true
        | _ => false) && (decide (pos ≤ rank m v j)
          && decide (rank m v j < window_end v pos count)) <;> rfl
    have hsub : substr m v pos count
        = ctor m (some a) (new_pred m (some a) v.pred_ pos (window_end v pos count)) := by
      unfold substr
      have h1 : ¬ pos > v.size := by omega
      have h2 : ¬ (pos = v.size ∨ count = some 0) := by
        intro h
        cases h with
        | inl h => omega
        | inr h => exact hc h
      simp only [h1, h2, if_false, to_string_valid m v hv, data, predicate, hp]
      rfl
    refine ⟨⟨some a, (hits m ⟨some a, 0,
        new_pred m (some a) v.pred_ pos (window_end v pos count)⟩).length,
        new_pred m (some a) v.pred_ pos (window_end v pos count)⟩, ?_, ?_, ?_, ?_, ?_⟩
    · rw [hsub, hctor]
    · exact (ctor_ok_valid m _ _ _ hctor).1
    · simp [data, hp]
    · exact hacc
    · rw [hits_of_ptr m _ v hp.symm]
      exact filter_window _ _ pos (window_end v pos count) (raw m v) hacc

/-! ## Claims about substr -/

theorem hits_empty_pred (m : Mem) (s : Option Nat) (n : Nat) :
    hits m ⟨s, n, empty_pred⟩ = [] := by
  unfold hits
  rw [List.filter_eq_nil_iff]
  intro x _
  simp [accepts, empty_pred]

/-- The empty branch of `substr`: the constructor applied to the rejecting predicate. -/
theorem ctor_empty_pred (m : Mem) (s : Option Nat) :
    ctor m s empty_pred = .ok ⟨s, 0, empty_pred⟩ := by
  have h := ctor_of_returns m s empty_pred (fun r _ => by simp [returns, empty_pred])
  rw [hits_empty_pred] at h
  exact h

theorem to_string_empty_pred (m : Mem) (s : Option Nat) :
    to_string m ⟨s, 0, empty_pred⟩ = .ok [] := by
  have hv : Valid m ⟨s, 0, empty_pred⟩ := (ctor_ok_valid m s empty_pred _ (ctor_empty_pred m s)).1
  rw [to_string_valid m _ hv]
  simp [content, hits_empty_pred]

theorem substr_empty (m : Mem) (v : filtered_string_view) (pos : Nat) (count : Option Nat)
    (hle : pos ≤ v.size) (h : pos = v.size ∨ count = some 0) :
    substr m v pos count = .ok ⟨v.ptr_, 0, empty_pred⟩ := by
  unfold substr
  have h1 : ¬ pos > v.size := by omega
  simp only [h1, h, if_false, if_true, data]
  exact ctor_empty_pred m v.ptr_

/-- When `pos + count` does not wrap around, `substr` returns the view of the ranks
`[pos, min(pos + count, size()))`, and with the count absent of the ranks `[pos, size())`. -/
theorem substr_exact (m : Mem) (v : filtered_string_view) (pos : Nat) (count : Option Nat)
    (hv : Valid m v) (hpos : pos < v.size)
    (hc : ∀ c, count = some c → c ≠ 0 ∧ pos + c < SIZE_MOD) :
    ∃ w, substr m v pos count = .ok w ∧ Valid m w ∧ w.data = v.data ∧
      window_end v pos count = exact_end v pos count ∧
      (∀ j x, (raw m v)[j]? = some x →
        accepts w.pred_ x = (accepts v.pred_ x
          && (decide (pos ≤ rank m v j) && decide (rank m v j < window_end v pos count)))) ∧
      content m w = ((content m v).drop pos).take (window_end v pos count - pos) ∧
      w.size = window_end v pos count - pos := by
  have hc0 : count ≠ some 0 := fun h => (hc 0 h).1 rfl
  obtain ⟨w, hw1, hw2, hw3, hw4, hw5⟩ := substr_window m v pos count hv hpos hc0
  have hend : window_end v pos count = exact_end v pos count := by
    cases count with
    | none => rfl
    | some c =>
      simp only [window_end, exact_end]
      rw [Nat.mod_eq_of_lt (hc c rfl).2]
  have hle : window_end v pos count ≤ v.size := by
    cases count with
    | none => exact Nat.le_refl _
    | some c =>
      simp only [window_end]
      exact Nat.min_le_right _ _
  refine ⟨w, hw1, hw2, hw3, hend, hw4, ?_, ?_⟩
  · simp only [content, hw5, List.map_take, List.map_drop]
  · have hs : v.size = (hits m v).length := hv.2
    have : w.size = (hits m w).length := hw2.2
    rw [this, hw5, List.length_take, List.length_drop]
    omega

/-- C7, evaluated where `pos + count` wraps around: on the view over "a1b2c3" with "is
alphabetic" (content "abc"), `substr(v, 1, 2^64 - 1)` is the empty view, while the ranks
`[1, min(1 + count, 3))` of the content are "bc". -/
theorem C7_substr_count_wraps :
    (substr demo_mem demo_alpha 1 (some (2 ^ 64 - 1))).map
        (fun w => (w.size, to_string demo_mem w)) = .ok (0, .ok []) ∧
      ((content demo_mem demo_alpha).drop 1).take (min (1 + (2 ^ 64 - 1)) demo_alpha.size - 1)
        = ['b', 'c'] := by
  decide

/-- C8: on every view, `substr(v, pos, count)` throws (`std::out_of_range`) exactly when
`pos > size()`; for `pos <= size()` it returns a view, whatever the count. -/
theorem C8_substr_range_check (m : Mem) (v : filtered_string_view) (pos : Nat)
    (count : Option Nat) (hv : Valid m v) :
    ((∃ e, substr m v pos count = .error e) ↔ pos > v.size) ∧
    (pos > v.size → substr m v pos count = .error .out_of_range) ∧
    (pos ≤ v.size → ∃ w, substr m v pos count = .ok w) := by
  have herr : pos > v.size → substr m v pos count = .error .out_of_range := by
    intro h
    unfold substr
    simp only [h, if_true]
  have hok : pos ≤ v.size → ∃ w, substr m v pos count = .ok w := by
    intro hle
    by_cases h : pos = v.size ∨ count = some 0
    · exact ⟨_, substr_empty m v pos count hle h⟩
    · obtain ⟨w, hw, -⟩ := substr_window m v pos count hv
        (by omega) (fun hc => h (Or.inr hc))
      exact ⟨w, hw⟩
  refine ⟨⟨fun ⟨e, he⟩ => ?_, fun h => ⟨_, herr h⟩⟩, herr, hok⟩
  by_contra hcon
  obtain ⟨w, hw⟩ := hok (by omega)
  rw [hw] at he
  cases he

/-- C8 at the view over "hello world" with `pos = 12` and `count = 3`. -/
theorem C8_substr_range_check_witness :
    Valid demo_mem demo_hello ∧
    (((∃ e, substr demo_mem demo_hello 12 (some 3) = .error e) ↔ 12 > demo_hello.size) ∧
    (12 > demo_hello.size → substr demo_mem demo_hello 12 (some 3) = .error .out_of_range) ∧
    (12 ≤ demo_hello.size → ∃ w, substr demo_mem demo_hello 12 (some 3) = .ok w)) :=
  ⟨by decide, C8_substr_range_check demo_mem demo_hello 12 (some 3) (by decide)⟩

/-- C9: on every view, `substr(v, size(), c)` for every optional count `c` and
`substr(v, p, 0)` for every `p <= size()` return a view over the same raw buffer, of size 0,
whose materialized string is empty. -/
theorem C9_substr_empty_cases (m : Mem) (v : filtered_string_view) (p : Nat)
    (c : Option Nat) (hp : p ≤ v.size) :
    (∃ w, substr m v v.size c = .ok w ∧ w.data = v.data ∧ w.size = 0 ∧
      to_string m w = .ok []) ∧
    (∃ w, substr m v p (some 0) = .ok w ∧ w.data = v.data ∧ w.size = 0 ∧
      to_string m w = .ok []) :=
  ⟨⟨_, substr_empty m v v.size c (Nat.le_refl _) (Or.inl rfl), rfl, rfl,
      to_string_empty_pred m v.ptr_⟩,
    ⟨_, substr_empty m v p (some 0) hp (Or.inr rfl), rfl, rfl, to_string_empty_pred m v.ptr_⟩⟩

/-- C9 at the view over "hello world": `substr(v, 11, 4)` and `substr(v, 3, 0)`. -/
theorem C9_substr_empty_cases_witness :
    3 ≤ demo_hello.size ∧
    ((∃ w, substr demo_mem demo_hello demo_hello.size (some 4) = .ok w ∧
      w.data = demo_hello.data ∧ w.size = 0 ∧ to_string demo_mem w = .ok []) ∧
    (∃ w, substr demo_mem demo_hello 3 (some 0) = .ok w ∧ w.data = demo_hello.data ∧
      w.size = 0 ∧ to_string demo_mem w = .ok [])) :=
  ⟨by decide, C9_substr_empty_cases demo_mem demo_hello 3 (some 4) (by decide)⟩

/-! ## The scan of split -/

theorem isPrefixOf_length (d l : List Char) (h : d.isPrefixOf l = true) :
    d.length ≤ l.length := by
  rw [List.isPrefixOf_iff_prefix] at h
  exact h.length_le

theorem find_from_some (d : List Char) (l : List Char) (p b : Nat)
    (h : find_from d l p = some b) :
    p ≤ b ∧ b - p ≤ l.length ∧ d.isPrefixOf (l.drop (b - p)) = true ∧
      ∀ j, p ≤ j → j < b → d.isPrefixOf (l.drop (j - p)) = false := by
  induction l generalizing p with
  | nil =>
    unfold find_from at h
    by_cases hd : d = []
    · rw [if_pos hd] at h
      injection h with h
      subst h
      subst hd
      refine ⟨Nat.le_refl _, by simp, by simp, fun j h1 h2 => by omega⟩
    · rw [if_neg hd] at h
      cases h
  | cons c t ih =>
    unfold find_from at h
    by_cases hp : d.isPrefixOf (c :: t) = true
    · rw [if_pos hp] at h
      injection h with h
      subst h
      refine ⟨Nat.le_refl _, by simp, by simpa using hp, fun j h1 h2 => by omega⟩
    · rw [if_neg hp] at h
      obtain ⟨h1, h2, h3, h4⟩ := ih (p + 1) h
      have hbp : b - p = (b - (p + 1)) + 1 := by omega
      refine ⟨by omega, by simp only [List.length_cons]; omega, ?_, fun j hj1 hj2 => ?_⟩
      · rw [hbp, List.drop_succ_cons]
        exact h3
      · by_cases hjp : j = p
        · subst hjp
          rw [Nat.sub_self, List.drop_zero]
          exact Bool.eq_false_iff.2 hp
        · have hjp2 : j - p = (j - (p + 1)) + 1 := by omega
          rw [hjp2, List.drop_succ_cons]
          exact h4 j (by omega) hj2

theorem find_from_none (d : List Char) (l : List Char) (p : Nat)
    (h : find_from d l p = none) :
    ∀ k, k ≤ l.length → d.isPrefixOf (l.drop k) = false := by
  induction l generalizing p with
  | nil =>
    unfold find_from at h
    by_cases hd : d = []
    · rw [if_pos hd] at h
      cases h
    · intro k _
      cases d with
      | nil => exact absurd rfl hd
      | cons x xs => simp [List.isPrefixOf]
  | cons c t ih =>
    unfold find_from at h
    by_cases hp : d.isPrefixOf (c :: t) = true
    · rw [if_pos hp] at h
      cases h
    · rw [if_neg hp] at h
      intro k hk
      cases k with
      | zero =>
        rw [List.drop_zero]
        exact Bool.eq_false_iff.2 hp
      | succ k =>
        rw [List.drop_succ_cons]
        exact ih (p + 1) h k (by simpa using hk)

/-- The result of `find`, for a non-empty `d`: the first occurrence at or after `start`. -/
theorem find_some (s d : List Char) (start b : Nat) (hd : d ≠ [])
    (h : find s d start = some b) : first_occurrence s d start b := by
  unfold find at h
  by_cases hs : start ≤ s.length
  · rw [if_pos hs] at h
    obtain ⟨h1, h2, h3, h4⟩ := find_from_some d (s.drop start) start b h
    rw [List.drop_drop] at h3
    have hb : start + (b - start) = b := by omega
    have hb2 : b - start + start = b := by omega
    rw [hb] at h3
    have hlen := isPrefixOf_length d _ h3
    rw [List.length_drop] at hlen h2
    have hdpos : 0 < d.length := List.length_pos.2 hd
    refine ⟨h1, by omega, h3, fun j hj1 hj2 => ?_⟩
    have := h4 j hj1 hj2
    rw [List.drop_drop, show start + (j - start) = j by omega] at this
    unfold occurs_at
    rw [this]
    simp
  · rw [if_neg hs] at h
    cases h

theorem find_none (s d : List Char) (start : Nat) (h : find s d start = none) :
    no_occurrence s d start := by
  unfold find at h
  intro j hj1 hj2
  by_cases hs : start ≤ s.length
  · rw [if_pos hs] at h
    have := find_from_none d (s.drop start) start h (j - start)
      (by rw [List.length_drop]; omega)
    rw [List.drop_drop, show start + (j - start) = j by omega] at this
    unfold occurs_at
    rw [this]
    simp
  · omega

/-- The function `find` returns the first occurrence whenever there is one. -/
theorem find_of_first_occurrence (s d : List Char) (x b : Nat) (hd : d ≠ [])
    (h : first_occurrence s d x b) : find s d x = some b := by
  obtain ⟨h1, h2, h3, h4⟩ := h
  cases hf : find s d x with
  | none => exact absurd h3 (find_none s d x hf b h1 (by omega))
  | some b2 =>
    obtain ⟨g1, g2, g3, g4⟩ := find_some s d x b2 hd hf
    have : b2 = b := by
      by_contra hne
      by_cases hlt : b2 < b
      · exact h4 b2 g1 hlt g3
      · exact g4 b h1 (by omega) h3
    rw [this]

theorem find_of_no_occurrence (s d : List Char) (x : Nat) (hd : d ≠ [])
    (h : no_occurrence s d x) : find s d x = none := by
  cases hf : find s d x with
  | none => rfl
  | some b =>
    obtain ⟨g1, g2, g3, -⟩ := find_some s d x b hd hf
    exact absurd g3 (h b g1 (by omega))

/-- Every string has a scan, for a non-empty `d`. -/
theorem is_scan_exists (s d : List Char) (hd : d ≠ []) (n x : Nat) (hn : s.length < x + n) :
    ∃ bs, is_scan s d x bs := by
  induction n generalizing x with
  | zero =>
    refine ⟨[], ?_⟩
    intro j h1 h2
    omega
  | succ n ih =>
    cases hf : find s d x with
    | none => exact ⟨[], find_none s d x hf⟩
    | some b =>
      have hfo := find_some s d x b hd hf
      have hdpos : 0 < d.length := List.length_pos.2 hd
      obtain ⟨bs, hbs⟩ := ih (b + d.length) (by have := hfo.1; omega)
      exact ⟨b :: bs, hfo, hbs⟩

/-- The scan is determined by the strings. -/
theorem is_scan_unique (s d : List Char) (hd : d ≠ []) (x : Nat) (bs bs2 : List Nat)
    (h1 : is_scan s d x bs) (h2 : is_scan s d x bs2) : bs = bs2 := by
  induction bs generalizing x bs2 with
  | nil =>
    cases bs2 with
    | nil => rfl
    | cons b t =>
      have := find_of_no_occurrence s d x hd h1
      rw [find_of_first_occurrence s d x b hd h2.1] at this
      cases this
  | cons b t ih =>
    cases bs2 with
    | nil =>
      have := find_of_no_occurrence s d x hd h2
      rw [find_of_first_occurrence s d x b hd h1.1] at this
      cases this
    | cons b2 t2 =>
      have e1 := find_of_first_occurrence s d x b hd h1.1
      have e2 := find_of_first_occurrence s d x b2 hd h2.1
      rw [e1] at e2
      injection e2 with e2
      subst e2
      rw [ih (b + d.length) t2 h1.2 h2.2]

/-! ## Claims about split -/

theorem size_eq_content_length (m : Mem) (v : filtered_string_view) (hv : Valid m v) :
    v.size = (content m v).length := by
  simp [size, content, hv.2]

theorem content_length_le (m : Mem) (v : filtered_string_view) :
    (content m v).length ≤ m.length := by
  simp only [content, List.length_map, hits]
  refine Nat.le_trans (List.length_filter_le _ _) ?_
  cases hp : v.ptr_ with
  | none => simp [raw, hp]
  | some a =>
    rw [raw_length m v a hp]
    have := strlen_le m a
    omega

/-- The call `substr(fsv, x, y - x)` of `split`: the ranks `[x, y)` of the content. -/
theorem substr_range (m : Mem) (v : filtered_string_view) (x y : Nat) (hv : Valid m v)
    (hxy : x ≤ y) (hy : y ≤ v.size) (hm : y < SIZE_MOD) :
    ∃ w, substr m v x (some (y - x)) = .ok w ∧ Valid m w ∧ w.data = v.data ∧
      content m w = ((content m v).drop x).take (y - x) := by
  by_cases he : y = x
  · subst he
    have hsub := substr_empty m v y (some (y - y)) hy (Or.inr (by simp))
    refine ⟨_, hsub, ?_, rfl, ?_⟩
    · exact (ctor_ok_valid m _ _ _ (ctor_empty_pred m v.ptr_)).1
    · simp [content, hits_empty_pred]
  · obtain ⟨w, h1, h2, h3, h4, -, h6, -⟩ := substr_exact m v x (some (y - x)) hv (by omega)
      (by
        intro c hc
        injection hc with hc
        subst hc
        exact ⟨by omega, by omega⟩)
    refine ⟨w, h1, h2, h3, ?_⟩
    rw [h6, h4]
    simp only [exact_end]
    rw [show x + (y - x) = y by omega, Nat.min_eq_left hy]

/-- The call `substr(fsv, x)` of `split`: the content from rank `x` on. -/
theorem substr_tail (m : Mem) (v : filtered_string_view) (x : Nat) (hv : Valid m v)
    (hx : x ≤ v.size) :
    ∃ w, substr m v x none = .ok w ∧ Valid m w ∧ w.data = v.data ∧
      content m w = (content m v).drop x := by
  by_cases he : x = v.size
  · have hsub := substr_empty m v x none hx (Or.inl he)
    refine ⟨_, hsub, ?_, rfl, ?_⟩
    · exact (ctor_ok_valid m _ _ _ (ctor_empty_pred m v.ptr_)).1
    · rw [he, size_eq_content_length m v hv, List.drop_length]
      simp [content, hits_empty_pred]
  · obtain ⟨w, h1, h2, h3, h4, -, h6, -⟩ := substr_exact m v x none hv (by omega)
      (by intro c hc; cases hc)
    refine ⟨w, h1, h2, h3, ?_⟩
    rw [h6, h4]
    simp only [exact_end]
    rw [List.take_of_length_le]
    rw [List.length_drop, size_eq_content_length m v hv]

theorem is_scan_bound (s d : List Char) (hd : d ≠ []) (x : Nat) (bs : List Nat)
    (hx : x ≤ s.length) (h : is_scan s d x bs) : bs.length + x ≤ s.length := by
  induction bs generalizing x with
  | nil => simpa using hx
  | cons b t ih =>
    obtain ⟨⟨h1, h2, -, -⟩, hrest⟩ := h
    have hdpos : 0 < d.length := List.length_pos.2 hd
    have := ih (b + d.length) h2 hrest
    simp only [List.length_cons]
    omega

/-- The loop of `split` along a scan: it appends one fragment per gap. -/
theorem split_loop_spec (m : Mem) (v : filtered_string_view) (d : List Char)
    (hm : m.length < SIZE_MOD) (hv : Valid m v) (hd : d ≠ []) (bs : List Nat) (x n : Nat)
    (result : List filtered_string_view)
    (hscan : is_scan (content m v) d x bs) (hx : x ≤ (content m v).length)
    (hn : bs.length ≤ n) :
    ∃ frags, split_loop m v (content m v) d n x (find (content m v) d x) result
        = some (.ok (result ++ frags)) ∧
      frags.map (content m) = gaps (content m v) d x bs ∧
      ∀ w ∈ frags, Valid m w ∧ w.data = v.data := by
  have hsz := size_eq_content_length m v hv
  induction bs generalizing x n result with
  | nil =>
    rw [find_of_no_occurrence _ d x hd hscan]
    obtain ⟨w, h1, h2, h3, h4⟩ := substr_tail m v x hv (by omega)
    refine ⟨[w], ?_, by simp [gaps, h4], ?_⟩
    · cases n <;> simp [split_loop, h1]
    · intro w2 hw2
      simp only [List.mem_singleton] at hw2
      subst hw2
      exact ⟨h2, h3⟩
  | cons b t ih =>
    obtain ⟨hfo, hrest⟩ := hscan
    rw [find_of_first_occurrence _ d x b hd hfo]
    obtain ⟨g1, g2, -, -⟩ := hfo
    have hdpos : 0 < d.length := List.length_pos.2 hd
    have hcl := content_length_le m v
    obtain ⟨w, h1, h2, h3, h4⟩ := substr_range m v x b hv g1 (by omega) (by omega)
    cases n with
    | zero => simp at hn
    | succ n =>
      obtain ⟨frags, f1, f2, f3⟩ := ih (b + d.length) n (result ++ [w]) hrest g2
        (by simpa using hn)
      refine ⟨w :: frags, ?_, ?_, ?_⟩
      · simp only [split_loop, h1, f1]
        simp
      · simp [gaps, h4, f2]
      · intro w2 hw2
        cases hw2 with
        | head => exact ⟨h2, h3⟩
        | tail _ hmem => exact f3 w2 hmem

/-- C10: for a view with non-empty materialized string `s` and a delimiter view with
non-empty materialized string `d`, `split` returns, in order, one fragment per gap of the
leftmost-first non-overlapping scan of `s` for `d`: with `n` occurrences it returns `n + 1`
fragments, which materialize to the pieces of `s` between the occurrences, zero-length
pieces included.  Sizes are `std::size_t` values, so memory is shorter than `2 ^ 64`. -/
theorem C10_split_fragments (m : Mem) (v tok : filtered_string_view) (s d : List Char)
    (hm : m.length < SIZE_MOD) (hv : Valid m v) (ht : Valid m tok)
    (hs : to_string m v = .ok s) (hd : to_string m tok = .ok d)
    (hsne : s ≠ []) (hdne : d ≠ []) :
    ∃ bs frags, is_scan s d 0 bs ∧ split m v tok = some (.ok frags) ∧
      frags.length = bs.length + 1 ∧
      frags.map (to_string m) = (gaps s d 0 bs).map Except.ok := by
  rw [to_string_valid m v hv] at hs
  rw [to_string_valid m tok ht] at hd
  injection hs with hs
  injection hd with hd
  subst hs
  subst hd
  obtain ⟨bs, hbs⟩ := is_scan_exists (content m v) (content m tok) hdne
    ((content m v).length + 1) 0 (by omega)
  have hb := is_scan_bound _ _ hdne 0 bs (Nat.zero_le _) hbs
  obtain ⟨frags, f1, f2, f3⟩ := split_loop_spec m v (content m tok) hm hv hdne bs 0
    ((content m v).length + 1) [] hbs (Nat.zero_le _) (by omega)
  refine ⟨bs, frags, hbs, ?_, ?_, ?_⟩
  · unfold split
    simp only [to_string_valid m v hv, to_string_valid m tok ht, hsne, hdne, or_self,
      if_false]
    simpa using f1
  · have hlen := congrArg List.length f2
    rw [List.length_map] at hlen
    rw [hlen]
    clear f1 f2 f3 hb hbs hlen
    generalize (0 : Nat) = x
    induction bs generalizing x with
    | nil => rfl
    | cons b t ih => simp [gaps, ih]
  · rw [← f2, List.map_map]
    apply List.map_congr_left
    intro w hw
    exact to_string_valid m w (f3 w hw).1

/-- The scenario of the specification: "c,a,t" split on "," gives "c", "a", "t". -/
theorem split_cat_example :
    (split demo_mem demo_cat demo_comma).map
        (fun r => r.map (fun frags => frags.map (to_string demo_mem)))
      = some (.ok [.ok "c".toList, .ok "a".toList, .ok "t".toList]) := by
  decide

/-- Leading, consecutive and trailing delimiters give zero-length fragments. -/
theorem split_commas_example :
    (split demo_mem demo_commas demo_comma).map
        (fun r => r.map (fun frags => frags.map (to_string demo_mem)))
      = some (.ok [.ok [], .ok [], .ok "a".toList, .ok [], .ok "b".toList, .ok []]) := by
  decide

/-- C10 at the view over ",,a,,b," split on ",". -/
theorem C10_split_fragments_witness :
    (demo_mem.length < SIZE_MOD ∧ Valid demo_mem demo_commas ∧ Valid demo_mem demo_comma ∧
      to_string demo_mem demo_commas = .ok ",,a,,b,".toList ∧
      to_string demo_mem demo_comma = .ok ",".toList ∧
      ",,a,,b,".toList ≠ [] ∧ ",".toList ≠ []) ∧
    ∃ bs frags, is_scan ",,a,,b,".toList ",".toList 0 bs ∧
      split demo_mem demo_commas demo_comma = some (.ok frags) ∧
      frags.length = bs.length + 1 ∧
      frags.map (to_string demo_mem) = (gaps ",,a,,b,".toList ",".toList 0 bs).map Except.ok :=
  ⟨by decide, C10_split_fragments demo_mem demo_commas demo_comma ",,a,,b,".toList ",".toList
    (by decide) (by decide) (by decide) (by decide) (by decide) (by decide) (by decide)⟩

end fsv

/-! ## Comparisons and move operations -/

namespace fsv

open filtered_string_view

/-! ## Claims about the trivial split and about compose -/

/-- C11: if the materialized string of the delimiter or of the view is empty, `split`
returns exactly one element, the view itself (same raw buffer, predicate and size). -/
theorem C11_split_trivial (m : Mem) (v tok : filtered_string_view) (s d : List Char)
    (hs : to_string m v = .ok s) (hd : to_string m tok = .ok d) (h : d = [] ∨ s = []) :
    split m v tok = some (.ok [v]) := by
  unfold split
  simp only [hs, hd]
  rw [if_pos (Or.symm h)]

/-- C11 at the view over "c,a,t" and a delimiter view over the empty string. -/
theorem C11_split_trivial_witness :
    (to_string demo_mem demo_cat = .ok "c,a,t".toList ∧
      to_string demo_mem demo_nothing = .ok [] ∧
      (([] : List Char) = [] ∨ "c,a,t".toList = [])) ∧
    split demo_mem demo_cat demo_nothing = some (.ok [demo_cat]) :=
  ⟨by decide, C11_split_trivial demo_mem demo_cat demo_nothing "c,a,t".toList []
    (by decide) (by decide) (Or.inl rfl)⟩

theorem compose_pred_spec (filts : List filter) (x : CharRef)
    (h : ∀ f ∈ filts, returns f x = true) :
    compose_pred filts x = .ok (filts.all (fun f => accepts f x)) := by
  induction filts with
  | nil => rfl
  | cons f fs ih =>
    simp only [List.mem_cons, forall_eq_or_imp] at h
    obtain ⟨h0, hrest⟩ := h
    obtain ⟨b, hb⟩ := (returns_iff f x).1 h0
    unfold compose_pred
    rw [hb]
    cases b with
    | false => simp [List.all_cons, accepts_false_of_ok_false f x hb]
    | true => simp [List.all_cons, accepts_true_of_ok_true f x hb, ih hrest]

/-- C12: `compose(v, fs)` is a view over the raw buffer of `v` whose predicate accepts a
character exactly when every predicate of `fs` accepts it; the predicate of `v` plays no
part (replacing it changes nothing), so the result materializes to the characters of the
raw buffer that satisfy all of `fs`, and `compose(v, [])` materializes to the whole raw
buffer. -/
theorem C12_compose (m : Mem) (v : filtered_string_view) (filts : List filter)
    (hret : ∀ f ∈ filts, ∀ x ∈ raw m v, returns f x = true) :
    (∃ w, compose m v filts = .ok w ∧ w.data = v.data ∧
      (∀ x ∈ raw m v, accepts w.pred_ x = filts.all (fun f => accepts f x)) ∧
      to_string m w = .ok (((raw m v).filter
        (fun x => filts.all (fun f => accepts f x))).map CharRef.val)) ∧
    (∀ p2, compose m ⟨v.ptr_, v.len_, p2⟩ filts = compose m v filts) ∧
    (∃ w, compose m v [] = .ok w ∧ to_string m w = .ok ((raw m v).map CharRef.val)) := by
  have hacc : ∀ fs : List filter, (∀ f ∈ fs, ∀ x ∈ raw m v, returns f x = true) →
      ∀ x ∈ raw m v, accepts (compose_pred fs) x = fs.all (fun f => accepts f x) := by
    intro fs hfs x hx
    have := compose_pred_spec fs x (fun f hf => hfs f hf x hx)
    unfold accepts at this ⊢
    rw [this]
    cases (fs.all fun f => match f x with
      | .ok true => true
      | _ => false) <;> rfl
  have hcomp : ∀ fs : List filter, (∀ f ∈ fs, ∀ x ∈ raw m v, returns f x = true) →
      ∃ w, compose m v fs = .ok w ∧ w.data = v.data ∧ w.pred_ = compose_pred fs ∧
        to_string m w = .ok (((raw m v).filter
          (fun x => fs.all (fun f => accepts f x))).map CharRef.val) := by
    intro fs hfs
    have hr : ∀ r ∈ raw m ⟨v.ptr_, 0, compose_pred fs⟩, returns (compose_pred fs) r = true := by
      intro r hr
      rw [raw_congr_ptr m v ⟨v.ptr_, 0, compose_pred fs⟩ rfl] at hr
      exact (returns_iff _ _).2 ⟨_, compose_pred_spec fs r (fun f hf => hfs f hf r hr)⟩
    have hctor := ctor_of_returns m v.ptr_ (compose_pred fs) hr
    refine ⟨_, hctor, rfl, rfl, ?_⟩
    rw [to_string_valid m _ (ctor_ok_valid m _ _ _ hctor).1]
    unfold content
    rw [hits_of_ptr m ⟨v.ptr_, (hits m ⟨v.ptr_, 0, compose_pred fs⟩).length, compose_pred fs⟩
      v rfl]
    congr 2
    exact List.filter_congr (hacc fs hfs)
  refine ⟨?_, fun p2 => rfl, ?_⟩
  · obtain ⟨w, h1, h2, h3, h4⟩ := hcomp filts hret
    refine ⟨w, h1, h2, ?_, h4⟩
    rw [h3]
    exact hacc filts hret
  · obtain ⟨w, h1, -, -, h4⟩ := hcomp [] (fun f hf => by cases hf)
    refine ⟨w, h1, ?_⟩
    rw [h4]
    simp

/-- C12 at the view over "a1b2c3" with "is alphabetic", composed with "is a digit". -/
theorem C12_compose_witness :
    (∀ f ∈ [(fun r => .ok r.val.isDigit : filter)], ∀ x ∈ raw demo_mem demo_alpha,
      returns f x = true) ∧
    ((∃ w, compose demo_mem demo_alpha [fun r => .ok r.val.isDigit] = .ok w ∧
      w.data = demo_alpha.data ∧
      (∀ x ∈ raw demo_mem demo_alpha, accepts w.pred_ x
        = [(fun r => .ok r.val.isDigit : filter)].all (fun f => accepts f x)) ∧
      to_string demo_mem w = .ok (((raw demo_mem demo_alpha).filter
        (fun x => [(fun r => .ok r.val.isDigit : filter)].all
          (fun f => accepts f x))).map CharRef.val)) ∧
    (∀ p2, compose demo_mem ⟨demo_alpha.ptr_, demo_alpha.len_, p2⟩
        [fun r => .ok r.val.isDigit] = compose demo_mem demo_alpha [fun r => .ok r.val.isDigit]) ∧
    (∃ w, compose demo_mem demo_alpha [] = .ok w ∧
      to_string demo_mem w = .ok ((raw demo_mem demo_alpha).map CharRef.val))) :=
  ⟨fun f hf x _ => by
      rw [List.mem_singleton] at hf
      subst hf
      rfl, C12_compose demo_mem demo_alpha [fun r => .ok r.val.isDigit]
    (fun f hf x _ => by
      rw [List.mem_singleton] at hf
      subst hf
      rfl)⟩

/-- The composition drops the predicate of the view: on "a1b2c3" filtered to its letters,
composing with "is a digit" gives "123". -/
theorem compose_example :
    (compose demo_mem demo_alpha [fun r => .ok r.val.isDigit]).map (to_string demo_mem)
      = .ok (.ok "123".toList) := by
  decide

/-! ## Claims about the comparisons -/

/-- The comparison of strings is the lexicographic order of their characters. -/
theorem string_lt_iff (s t : List Char) :
    string_lt s t = true ↔ List.Lex (fun x y : Char => x < y) s t := by
  induction s generalizing t with
  | nil =>
    cases t with
    | nil => simp [string_lt, List.Lex.not_nil_right]
    | cons b bs => simp [string_lt, List.Lex.nil]
  | cons a as ih =>
    cases t with
    | nil => simp [string_lt, List.Lex.not_nil_right]
    | cons b bs =>
      unfold string_lt
      by_cases hab : a < b
      · rw [if_pos hab]
        exact ⟨fun _ => List.Lex.rel hab, fun _ => rfl⟩
      · rw [if_neg hab]
        by_cases hba : b < a
        · rw [if_pos hba]
          refine ⟨fun h => (by cases h), fun h => ?_⟩
          cases h with
          | cons h => exact absurd hba (lt_irrefl _)
          | rel h => exact absurd h hab
        · rw [if_neg hba]
          have heq : a = b := le_antisymm (not_lt.1 hba) (not_lt.1 hab)
          subst heq
          rw [ih bs]
          exact (List.Lex.cons_iff).symm

theorem lex_trichotomy (s t : List Char) :
    List.Lex (fun x y : Char => x < y) s t ∨ s = t ∨ List.Lex (fun x y : Char => x < y) t s :=
  (List.Lex.isTrichotomous (fun x y : Char => x < y)).trichotomous s t

theorem lex_asymm (s t : List Char) (h : List.Lex (fun x y : Char => x < y) s t) :
    ¬ List.Lex (fun x y : Char => x < y) t s :=
  (List.Lex.isAsymm (fun x y : Char => x < y)).asymm s t h

theorem lex_irrefl (s : List Char) : ¬ List.Lex (fun x y : Char => x < y) s s :=
  fun h => lex_asymm s s h h

/-- C13: for all views `a` and `b`, with materialized strings `s` and `t`: `a == b` is
`s = t`, `a < b` is "`s` is lexicographically less than `t`", `a != b` is the negation of
`a == b`, `a > b` is `b < a`, `a <= b` is `a < b` or `a == b`, `a >= b` is `a > b` or
`a == b`, and exactly one of `a < b`, `a == b`, `a > b` holds. -/
theorem C13_comparisons (m : Mem) (a b : filtered_string_view) (ha : Valid m a)
    (hb : Valid m b) :
    ∃ s t eq lt gt, to_string m a = .ok s ∧ to_string m b = .ok t ∧
      operator_eq m a b = .ok eq ∧ operator_lt m a b = .ok lt ∧ operator_gt m a b = .ok gt ∧
      (eq = true ↔ s = t) ∧
      (lt = true ↔ List.Lex (fun x y : Char => x < y) s t) ∧
      operator_lt m b a = .ok gt ∧
      operator_ne m a b = .ok (!eq) ∧
      operator_le m a b = .ok (lt || eq) ∧
      operator_ge m a b = .ok (gt || eq) ∧
      ((lt = true ∧ eq = false ∧ gt = false) ∨ (lt = false ∧ eq = true ∧ gt = false)
        ∨ (lt = false ∧ eq = false ∧ gt = true)) := by
  have hsa := to_string_valid m a ha
  have hsb := to_string_valid m b hb
  have hlt := string_lt_iff (content m a) (content m b)
  have hgt := string_lt_iff (content m b) (content m a)
  have hone : (string_lt (content m a) (content m b) = true
        ∧ decide (content m a = content m b) = false
        ∧ string_lt (content m b) (content m a) = false)
      ∨ (string_lt (content m a) (content m b) = false
        ∧ decide (content m a = content m b) = true
        ∧ string_lt (content m b) (content m a) = false)
      ∨ (string_lt (content m a) (content m b) = false
        ∧ decide (content m a = content m b) = false
        ∧ string_lt (content m b) (content m a) = true) := by
    rcases lex_trichotomy (content m a) (content m b) with h | h | h
    · refine Or.inl ⟨hlt.2 h, ?_, ?_⟩
      · rw [decide_eq_false_iff_not]
        intro heq
        rw [heq] at h
        exact lex_irrefl _ h
      · rw [Bool.eq_false_iff]
        intro hg
        exact lex_asymm _ _ h (hgt.1 hg)
    · refine Or.inr (Or.inl ⟨?_, decide_eq_true h, ?_⟩)
      · rw [Bool.eq_false_iff]
        intro hl
        have := hlt.1 hl
        rw [h] at this
        exact lex_irrefl _ this
      · rw [Bool.eq_false_iff]
        intro hg
        have := hgt.1 hg
        rw [h] at this
        exact lex_irrefl _ this
    · refine Or.inr (Or.inr ⟨?_, ?_, hgt.2 h⟩)
      · rw [Bool.eq_false_iff]
        intro hl
        exact lex_asymm _ _ h (hlt.1 hl)
      · rw [decide_eq_false_iff_not]
        intro heq
        rw [heq] at h
        exact lex_irrefl _ h
  refine ⟨content m a, content m b, decide (content m a = content m b),
    string_lt (content m a) (content m b), string_lt (content m b) (content m a),
    hsa, hsb, ?_, ?_, ?_, ?_, hlt, ?_, ?_, ?_, ?_, hone⟩
  · simp only [operator_eq, hsa, hsb]
  · simp only [operator_lt, hsa, hsb]
  · simp only [operator_gt, operator_lt, hsa, hsb]
  · simp
  · simp only [operator_lt, hsa, hsb]
  · simp only [operator_ne, operator_eq, hsa, hsb]
  · simp only [operator_le, operator_lt, hsa, hsb]
    rcases hone with ⟨h1, h2, h3⟩ | ⟨h1, h2, h3⟩ | ⟨h1, h2, h3⟩ <;> rw [h1, h2, h3] <;> rfl
  · simp only [operator_ge, operator_lt, hsa, hsb]
    rcases hone with ⟨h1, h2, h3⟩ | ⟨h1, h2, h3⟩ | ⟨h1, h2, h3⟩ <;> rw [h1, h2, h3] <;> rfl

/-- C13 at the views over "a1b2c3" with "is alphabetic" and over "hello world". -/
theorem C13_comparisons_witness :
    (Valid demo_mem demo_alpha ∧ Valid demo_mem demo_hello) ∧
    ∃ s t eq lt gt, to_string demo_mem demo_alpha = .ok s ∧
      to_string demo_mem demo_hello = .ok t ∧
      operator_eq demo_mem demo_alpha demo_hello = .ok eq ∧
      operator_lt demo_mem demo_alpha demo_hello = .ok lt ∧
      operator_gt demo_mem demo_alpha demo_hello = .ok gt ∧
      (eq = true ↔ s = t) ∧
      (lt = true ↔ List.Lex (fun x y : Char => x < y) s t) ∧
      operator_lt demo_mem demo_hello demo_alpha = .ok gt ∧
      operator_ne demo_mem demo_alpha demo_hello = .ok (!eq) ∧
      operator_le demo_mem demo_alpha demo_hello = .ok (lt || eq) ∧
      operator_ge demo_mem demo_alpha demo_hello = .ok (gt || eq) ∧
      ((lt = true ∧ eq = false ∧ gt = false) ∨ (lt = false ∧ eq = true ∧ gt = false)
        ∨ (lt = false ∧ eq = false ∧ gt = true)) :=
  ⟨by decide, C13_comparisons demo_mem demo_alpha demo_hello (by decide) (by decide)⟩

/-! ## Claims about the move operations -/

theorem empty_function_ne_default : empty_function ≠ default_predicate := by
  intro h
  have := congrFun h ⟨0, NUL⟩
  simp [empty_function, default_predicate] at this

theorem moved_from_sentinel (m : Mem) : moved_from m ⟨none, 0, empty_function⟩ := by
  refine ⟨rfl, rfl, empty_function_ne_default, rfl, rfl, rfl, ?_, fun i => ?_⟩
  · intro objs p hp
    have hptr : (objs p).ptr_ = none := by rw [hp]
    rw [begin_null m objs p hptr, end_null m objs p hptr]
  · simp [«at»]

/-- C14: move construction gives the new object the buffer, size and predicate of the source
and leaves the source in the empty sentinel state; move assignment to a different object
does the same for the assigned object and leaves every other object alone; move-assigning
an object to itself changes nothing. -/
theorem C14_move_semantics (m : Mem) (objs : Objs) (v : filtered_string_view)
    (this other : Nat) (hne : this ≠ other) :
    ((move_ctor v).1.ptr_ = v.ptr_ ∧ (move_ctor v).1.len_ = v.len_ ∧
      (move_ctor v).1.pred_ = v.pred_ ∧ moved_from m (move_ctor v).2) ∧
    ((move_assign objs this other this).ptr_ = (objs other).ptr_ ∧
      (move_assign objs this other this).len_ = (objs other).len_ ∧
      (move_assign objs this other this).pred_ = (objs other).pred_ ∧
      moved_from m (move_assign objs this other other) ∧
      ∀ p, p ≠ this → p ≠ other → move_assign objs this other p = objs p) ∧
    move_assign objs this this = objs := by
  refine ⟨⟨rfl, rfl, rfl, moved_from_sentinel m⟩, ⟨?_, ?_, ?_, ?_, ?_⟩, ?_⟩
  · simp [move_assign, hne]
  · simp [move_assign, hne]
  · simp [move_assign, hne]
  · have : move_assign objs this other other = ⟨none, 0, empty_function⟩ := by
      simp [move_assign, hne]
    rw [this]
    exact moved_from_sentinel m
  · intro p hp1 hp2
    simp [move_assign, hne, hp1, hp2]
  · simp [move_assign]

/-- C14 at the view over "a1b2c3" with "is alphabetic", stored at address 1 and
move-assigned to the object at address 0. -/
theorem C14_move_semantics_witness :
    (0 : Nat) ≠ 1 ∧
    (((move_ctor demo_alpha).1.ptr_ = demo_alpha.ptr_ ∧
      (move_ctor demo_alpha).1.len_ = demo_alpha.len_ ∧
      (move_ctor demo_alpha).1.pred_ = demo_alpha.pred_ ∧
      moved_from demo_mem (move_ctor demo_alpha).2) ∧
    ((move_assign (fun _ => demo_alpha) 0 1 0).ptr_ = demo_alpha.ptr_ ∧
      (move_assign (fun _ => demo_alpha) 0 1 0).len_ = demo_alpha.len_ ∧
      (move_assign (fun _ => demo_alpha) 0 1 0).pred_ = demo_alpha.pred_ ∧
      moved_from demo_mem (move_assign (fun _ => demo_alpha) 0 1 1) ∧
      ∀ p, p ≠ 0 → p ≠ 1 → move_assign (fun _ => demo_alpha) 0 1 p = demo_alpha) ∧
    move_assign (fun _ => demo_alpha) 0 0 = fun _ => demo_alpha) :=
  ⟨by decide, C14_move_semantics demo_mem (fun _ => demo_alpha) demo_alpha 0 1 (by decide)⟩

/-! ## Claims about single cursor moves -/

theorem holds_at_iff (m : Mem) (v : filtered_string_view) (a j : Nat) (hp : v.ptr_ = some a)
    (hj : j < strlen m a) : holds_at m v j ↔ acc_at m v.pred_ a j = true := by
  unfold holds_at
  rw [raw_getElem? m v a j hp hj]
  constructor
  · rintro ⟨x, hx, hacc⟩
    injection hx with hx
    subst hx
    exact hacc
  · intro h
    exact ⟨_, rfl, h⟩

theorem holds_at_lt (m : Mem) (v : filtered_string_view) (j : Nat) (h : holds_at m v j) :
    j < (raw m v).length := by
  obtain ⟨x, hx, -⟩ := h
  by_contra hcon
  rw [List.getElem?_eq_none (by omega)] at hx
  cases hx

theorem not_holds_at (m : Mem) (v : filtered_string_view) (a j : Nat) (hp : v.ptr_ = some a)
    (h : acc_at m v.pred_ a j = false) : ¬ holds_at m v j := by
  intro hh
  have hj : j < strlen m a := by
    have := holds_at_lt m v j hh
    rwa [raw_length m v a hp] at this
  rw [holds_at_iff m v a j hp hj, h] at hh
  cases hh

/-- A view has no match exactly when the cursor `begin()` is at the end of the buffer. -/
theorem begin_at_end_iff (m : Mem) (objs : Objs) (t a r0 : Nat) (hp : (objs t).ptr_ = some a)
    (hv : Valid m (objs t))
    (h0 : r0 ≤ strlen m a) (h1 : r0 < strlen m a → acc_at m (objs t).pred_ a r0 = true)
    (h2 : ∀ j, j < r0 → acc_at m (objs t).pred_ a j = false) :
    r0 = strlen m a ↔ (objs t).size = 0 := by
  obtain ⟨r, hr1, hr2, hr3, hr4⟩ := forward_state m objs t a r0 hp hv h0 h1 h2 0 (Nat.zero_le _)
  simp only [inc_n] at hr1
  injection hr1 with hr1
  injection hr1 with _ hr1
  subst hr1
  rw [List.drop_zero] at hr4
  have hsz : (objs t).size = (hits m (objs t)).length := hv.2
  constructor
  · intro he
    rw [raw_drop_end m (objs t) a r0 hp (by omega)] at hr4
    rw [hsz, ← hr4]
    rfl
  · intro hz
    rw [hsz, List.length_eq_zero] at hz
    rw [hz] at hr4
    exact forward_state_end m (objs t) a r0 hp h0 h1 hr4

/-- C15: on every view with a buffer of raw length `n`, the cursor constructed from
`(v, r)` with `r <= n` holds the smallest raw offset `q >= r` at which the predicate holds,
or `n` if there is none; `begin()` is that cursor for `r = 0`, `end()` holds exactly `n`,
and `begin() == end()` exactly when `size()` is 0. -/
theorem C15_cursor_construction (m : Mem) (objs : Objs) (t r : Nat)
    (hv : Valid m (objs t)) (hr : r ≤ (raw m (objs t)).length) :
    (∃ q, const_iterator.ctor m objs (some t) r = .ok ⟨some t, q⟩ ∧ r ≤ q ∧
      q ≤ (raw m (objs t)).length ∧
      (q < (raw m (objs t)).length → holds_at m (objs t) q) ∧
      ∀ j, r ≤ j → j < q → ¬ holds_at m (objs t) j) ∧
    begin m objs t = const_iterator.ctor m objs (some t) 0 ∧
    «end» m objs t = .ok ⟨some t, (raw m (objs t)).length⟩ ∧
    ∃ b e, begin m objs t = .ok b ∧ «end» m objs t = .ok e ∧
      (const_iterator.eq b e = true ↔ (objs t).size = 0) := by
  cases hp : (objs t).ptr_ with
  | none =>
    have hraw : raw m (objs t) = [] := by simp [raw, hp]
    rw [hraw] at hr ⊢
    have hr0 : r = 0 := by simpa using hr
    subst hr0
    refine ⟨⟨0, ?_, Nat.le_refl _, Nat.le_refl _, fun h => by simp at h,
      fun j h1 h2 => by omega⟩, rfl, ?_, ⟨some t, 0⟩, ⟨some t, 0⟩, begin_null m objs t hp,
      end_null m objs t hp, ?_⟩
    · simp only [const_iterator.ctor, hp]
    · rw [end_null m objs t hp]
      rfl
    · have := (valid_null m (objs t) hp hv).1
      simp [const_iterator.eq, size, this]
  | some a =>
    have hn : (raw m (objs t)).length = strlen m a := raw_length m (objs t) a hp
    rw [hn] at hr ⊢
    obtain ⟨q, hq1, hq2, hq3, hq4, hq5⟩ := cursor_ctor_spec m objs t a r hp hv hr
    obtain ⟨r0, hb, h0, h1, h2⟩ := begin_spec m objs t a hp hv
    refine ⟨⟨q, hq1, hq2, hq3, fun h => (holds_at_iff m (objs t) a q hp h).2 (hq4 h),
      fun j hj1 hj2 => not_holds_at m (objs t) a j hp (hq5 j hj1 hj2)⟩, rfl,
      end_spec m objs t a hp, ⟨some t, r0⟩, ⟨some t, strlen m a⟩, hb, end_spec m objs t a hp, ?_⟩
    rw [← begin_at_end_iff m objs t a r0 hp hv h0 h1 h2]
    simp [const_iterator.eq]

/-- C15 at the view over ",,a,,b," with "is alphabetic", from raw offset 3. -/
theorem C15_cursor_construction_witness :
    (Valid demo_mem demo_letters ∧ 3 ≤ (raw demo_mem demo_letters).length) ∧
    ((∃ q, const_iterator.ctor demo_mem (fun _ => demo_letters) (some 0) 3 = .ok ⟨some 0, q⟩ ∧
      3 ≤ q ∧ q ≤ (raw demo_mem demo_letters).length ∧
      (q < (raw demo_mem demo_letters).length → holds_at demo_mem demo_letters q) ∧
      ∀ j, 3 ≤ j → j < q → ¬ holds_at demo_mem demo_letters j) ∧
    begin demo_mem (fun _ => demo_letters) 0
      = const_iterator.ctor demo_mem (fun _ => demo_letters) (some 0) 0 ∧
    «end» demo_mem (fun _ => demo_letters) 0
      = .ok ⟨some 0, (raw demo_mem demo_letters).length⟩ ∧
    ∃ b e, begin demo_mem (fun _ => demo_letters) 0 = .ok b ∧
      «end» demo_mem (fun _ => demo_letters) 0 = .ok e ∧
      (const_iterator.eq b e = true ↔ demo_letters.size = 0)) :=
  ⟨by decide, C15_cursor_construction demo_mem (fun _ => demo_letters) 0 3
    (by decide) (by decide)⟩

/-- C16: on a view with a non-null buffer of raw length `n`, `operator++` on a cursor at
raw offset `p < n` moves it to the smallest raw offset `q > p` at which the predicate holds,
or to `n` if there is none; the new offset is greater than `p` and at most `n`. -/
theorem C16_increment (m : Mem) (objs : Objs) (t a p : Nat) (hp : (objs t).ptr_ = some a)
    (hv : Valid m (objs t)) (hlt : p < (raw m (objs t)).length) :
    ∃ q, const_iterator.inc m objs ⟨some t, p⟩ = .ok ⟨some t, q⟩ ∧ p < q ∧
      q ≤ (raw m (objs t)).length ∧
      (q < (raw m (objs t)).length → holds_at m (objs t) q) ∧
      ∀ j, p < j → j < q → ¬ holds_at m (objs t) j := by
  have hn : (raw m (objs t)).length = strlen m a := raw_length m (objs t) a hp
  rw [hn] at hlt ⊢
  obtain ⟨q, hq1, hq2, hq3, hq4, hq5⟩ := cursor_inc_spec m objs t a p hp hv hlt
  exact ⟨q, hq1, hq2, hq3, fun h => (holds_at_iff m (objs t) a q hp h).2 (hq4 h),
    fun j hj1 hj2 => not_holds_at m (objs t) a j hp (hq5 j hj1 hj2)⟩

/-- C16 at the view over ",,a,,b," with "is alphabetic", from raw offset 2. -/
theorem C16_increment_witness :
    ((fun _ => demo_letters : Objs) 0).ptr_ = some 27 ∧ Valid demo_mem demo_letters ∧
    2 < (raw demo_mem demo_letters).length ∧
    ∃ q, const_iterator.inc demo_mem (fun _ => demo_letters) ⟨some 0, 2⟩ = .ok ⟨some 0, q⟩ ∧
      2 < q ∧ q ≤ (raw demo_mem demo_letters).length ∧
      (q < (raw demo_mem demo_letters).length → holds_at demo_mem demo_letters q) ∧
      ∀ j, 2 < j → j < q → ¬ holds_at demo_mem demo_letters j :=
  ⟨rfl, by decide, by decide,
    C16_increment demo_mem (fun _ => demo_letters) 0 27 2 rfl (by decide) (by decide)⟩

/-- C17: on a view with a non-null buffer of raw length `n`, `operator--` on a cursor at raw
offset `p` with `0 < p <= n` moves it to the largest raw offset `q < p` at which the
predicate holds, or to raw offset 0 if there is none; and for a cursor at a match or at
`end()` with a match before it, incrementing after decrementing gives the cursor back.  Raw
offsets are `std::size_t` values, so memory is shorter than `2 ^ 64`. -/
theorem C17_decrement (m : Mem) (objs : Objs) (t a p : Nat) (hp : (objs t).ptr_ = some a)
    (hv : Valid m (objs t)) (hm : m.length < SIZE_MOD) (hp0 : 0 < p)
    (hpn : p ≤ (raw m (objs t)).length) :
    ∃ q, const_iterator.dec m objs ⟨some t, p⟩ = .ok ⟨some t, q⟩ ∧ q < p ∧
      ((holds_at m (objs t) q ∧ ∀ j, q < j → j < p → ¬ holds_at m (objs t) j) ∨
        (q = 0 ∧ ∀ j, j < p → ¬ holds_at m (objs t) j)) ∧
      ((p = (raw m (objs t)).length ∨ holds_at m (objs t) p) →
        (∃ j, j < p ∧ holds_at m (objs t) j) →
        const_iterator.inc m objs ⟨some t, q⟩ = .ok ⟨some t, p⟩) := by
  have hn : (raw m (objs t)).length = strlen m a := raw_length m (objs t) a hp
  rw [hn] at hpn ⊢
  obtain ⟨q, hq1, hq2, hq3, hq4⟩ := cursor_dec_spec m objs t a p hp hv hm hp0 hpn
  have hbetween : ∀ j, q < j → j < p → ¬ holds_at m (objs t) j :=
    fun j hj1 hj2 => not_holds_at m (objs t) a j hp (hq4 j hj1 hj2)
  have hcases : (holds_at m (objs t) q ∧ ∀ j, q < j → j < p → ¬ holds_at m (objs t) j) ∨
      (q = 0 ∧ ∀ j, j < p → ¬ holds_at m (objs t) j) := by
    by_cases hacc : acc_at m (objs t).pred_ a q = true
    · exact Or.inl ⟨(holds_at_iff m (objs t) a q hp (by omega)).2 hacc, hbetween⟩
    · have hq0 : q = 0 := by
        cases hq3 with
        | inl h => exact h
        | inr h => exact absurd h hacc
      refine Or.inr ⟨hq0, fun j hj => ?_⟩
      by_cases hj0 : j = 0
      · subst hj0
        subst hq0
        exact not_holds_at m (objs t) a 0 hp (by simpa using hacc)
      · exact hbetween j (by omega) hj
  refine ⟨q, hq1, hq2, hcases, fun hsettled hex => ?_⟩
  obtain ⟨q2, hi1, hi2, hi3, hi4, hi5⟩ := cursor_inc_spec m objs t a q hp hv (by omega)
  have hq2 : q2 = p := by
    by_contra hne
    by_cases hlt : q2 < p
    · exact hbetween q2 hi2 hlt ((holds_at_iff m (objs t) a q2 hp (by omega)).2 (hi4 (by omega)))
    · have hgt : p < q2 := by omega
      cases hsettled with
      | inl h => omega
      | inr h =>
        exact not_holds_at m (objs t) a p hp (hi5 p hq2 hgt) h
  rw [hi1, hq2]

/-- C17 at the view over ",,a,,b," with "is alphabetic", from `end()` (raw offset 7). -/
theorem C17_decrement_witness :
    (((fun _ => demo_letters : Objs) 0).ptr_ = some 27 ∧ Valid demo_mem demo_letters ∧
      demo_mem.length < SIZE_MOD ∧ 0 < 7 ∧ 7 ≤ (raw demo_mem demo_letters).length) ∧
    ∃ q, const_iterator.dec demo_mem (fun _ => demo_letters) ⟨some 0, 7⟩ = .ok ⟨some 0, q⟩ ∧
      q < 7 ∧
      ((holds_at demo_mem demo_letters q ∧
          ∀ j, q < j → j < 7 → ¬ holds_at demo_mem demo_letters j) ∨
        (q = 0 ∧ ∀ j, j < 7 → ¬ holds_at demo_mem demo_letters j)) ∧
      ((7 = (raw demo_mem demo_letters).length ∨ holds_at demo_mem demo_letters 7) →
        (∃ j, j < 7 ∧ holds_at demo_mem demo_letters j) →
        const_iterator.inc demo_mem (fun _ => demo_letters) ⟨some 0, q⟩ = .ok ⟨some 0, 7⟩) :=
  ⟨⟨rfl, by decide, by decide, by decide, by decide⟩,
    C17_decrement demo_mem (fun _ => demo_letters) 0 27 7 rfl (by decide) (by decide)
      (by decide) (by decide)⟩

/-! ## Claims about large counts and about nested substr -/

/-- Every view returned by `substr` on a valid view is valid and shares its raw buffer. -/
theorem substr_valid (m : Mem) (v w : filtered_string_view) (pos : Nat) (count : Option Nat)
    (hv : Valid m v) (h : substr m v pos count = .ok w) : Valid m w ∧ w.data = v.data := by
  by_cases hgt : pos > v.size
  · unfold substr at h
    simp only [hgt, if_true] at h
    cases h
  · by_cases he : pos = v.size ∨ count = some 0
    · rw [substr_empty m v pos count (by omega) he] at h
      injection h with h
      subst h
      exact ⟨(ctor_ok_valid m _ _ _ (ctor_empty_pred m v.ptr_)).1, rfl⟩
    · obtain ⟨w2, h1, h2, h3, -⟩ := substr_window m v pos count hv (by omega)
        (fun hc => he (Or.inr hc))
      rw [h1] at h
      injection h with h
      subst h
      exact ⟨h2, h3⟩

/-- On a valid view, for `pos <= size()` and a count that is absent or does not make
`pos + count` wrap around, `substr` returns the view of the ranks
`[pos, min(pos + count, size()))` of the content (`[pos, size())` when the count is
absent). -/
theorem substr_ranks (m : Mem) (v : filtered_string_view) (pos : Nat) (count : Option Nat)
    (hv : Valid m v) (hpos : pos ≤ v.size) (hc : ∀ c, count = some c → pos + c < SIZE_MOD) :
    ∃ w, substr m v pos count = .ok w ∧ Valid m w ∧ w.data = v.data ∧
      content m w = ((content m v).drop pos).take (exact_end v pos count - pos) := by
  by_cases he : pos = v.size ∨ count = some 0
  · have hsub := substr_empty m v pos count hpos he
    refine ⟨_, hsub, (ctor_ok_valid m _ _ _ (ctor_empty_pred m v.ptr_)).1, rfl, ?_⟩
    have hnil : content m ⟨v.ptr_, 0, empty_pred⟩ = [] := by simp [content, hits_empty_pred]
    rw [hnil]
    cases he with
    | inl h =>
      rw [h, size_eq_content_length m v hv, List.drop_length, List.take_nil]
    | inr h =>
      subst h
      have : exact_end v pos (some 0) - pos = 0 := by
        simp only [exact_end, Nat.add_zero]
        omega
      rw [this, List.take_zero]
  · obtain ⟨w, h1, h2, h3, h4, -, h6, -⟩ := substr_exact m v pos count hv (by omega)
      (fun c hcc => ⟨fun h0 => he (Or.inr (by rw [hcc, h0])), hc c hcc⟩)
    exact ⟨w, h1, h2, h3, by rw [h6, h4]⟩

/-- A count that reaches the end of the view without wrapping around gives the same string
as the absent count. -/
theorem substr_large_count (m : Mem) (v : filtered_string_view) (pos c : Nat)
    (hv : Valid m v) (hpos : pos < v.size) (hc : v.size - pos ≤ c) (hw : pos + c < SIZE_MOD) :
    ∃ w w2, substr m v pos (some c) = .ok w ∧ substr m v pos none = .ok w2 ∧
      content m w = content m w2 ∧ content m w = (content m v).drop pos := by
  obtain ⟨w, h1, -, -, h4⟩ := substr_ranks m v pos (some c) hv (by omega)
    (fun c2 hc2 => by injection hc2 with hc2; subst hc2; exact hw)
  obtain ⟨w2, g1, -, -, g4⟩ := substr_ranks m v pos none hv (by omega)
    (fun c2 hc2 => by cases hc2)
  have hlen := size_eq_content_length m v hv
  have e1 : content m w = (content m v).drop pos := by
    rw [h4]
    apply List.take_of_length_le
    simp only [exact_end, List.length_drop]
    omega
  have e2 : content m w2 = (content m v).drop pos := by
    rw [g4]
    apply List.take_of_length_le
    simp only [exact_end, List.length_drop]
    omega
  exact ⟨w, w2, h1, g1, by rw [e1, e2], e1⟩

/-- C18, evaluated where `pos + count` is not representable: on the view over
"hello world", `substr(v, 6, 2^64 - 1)` materializes to the empty string, while
`substr(v, 6)` materializes to "world". -/
theorem C18_substr_large_count_wraps :
    demo_hello.size - 6 ≤ 2 ^ 64 - 1 ∧ 2 ^ 64 - 1 < SIZE_MOD ∧
    (substr demo_mem demo_hello 6 (some (2 ^ 64 - 1))).map (to_string demo_mem)
      = .ok (.ok []) ∧
    (substr demo_mem demo_hello 6 none).map (to_string demo_mem)
      = .ok (.ok "world".toList) := by
  decide

/-- C19 as stated, refuted: the view `w = substr(v, 6)` over "hello world" has size 5, and
`substr(w, 6, 1)` throws instead of materializing to the (empty) ranks `[6, min(7, 5))`. -/
theorem C19_nested_substr_throws :
    (substr demo_mem demo_hello 6 none).map
        (fun w => (w.size, (substr demo_mem w 6 (some 1)).map size))
      = .ok (5, .error .out_of_range) ∧
    ¬ ∃ w u, substr demo_mem demo_hello 6 none = .ok w ∧
      substr demo_mem w 6 (some 1) = .ok u := by
  have h : (substr demo_mem demo_hello 6 none).map
      (fun w => (substr demo_mem w 6 (some 1)).map size) = .ok (.error .out_of_range) := by
    decide
  refine ⟨by decide, ?_⟩
  rintro ⟨w, u, hw, hu⟩
  rw [hw] at h
  simp only [Except.map] at h
  rw [hu] at h
  simp only [Except.map] at h
  injection h with h
  cases h

/-- Beyond `size()` the position is rejected, whatever the count. -/
theorem substr_throws (m : Mem) (v : filtered_string_view) (pos : Nat) (count : Option Nat)
    (h : pos > v.size) : substr m v pos count = .error .out_of_range := by
  unfold substr
  simp only [h, if_true]

/-- C19, amended: for `a + b <= size(v)` the view `substr(substr(v, a), b)` is defined and
materializes to the same string as `substr(v, a + b)`; and for a view `w` returned by
`substr`, every `pos <= size(w)` and every count that is absent or does not make
`pos + count` wrap around, `substr(w, pos, count)` materializes to the ranks
`[pos, min(pos + count, size(w)))` of the materialized string of `w`; for `pos > size(w)`
it throws `std::out_of_range`, whatever the count. -/
theorem C19_nested_substr (m : Mem) (v : filtered_string_view) (a b : Nat)
    (hv : Valid m v) (hab : a + b ≤ v.size) :
    (∃ w u u2, substr m v a none = .ok w ∧ substr m w b none = .ok u ∧
      substr m v (a + b) none = .ok u2 ∧ to_string m u = to_string m u2) ∧
    (∀ w p0 c0 pos count, substr m v p0 c0 = .ok w → pos ≤ w.size →
      (∀ c, count = some c → pos + c < SIZE_MOD) →
      ∃ u s, substr m w pos count = .ok u ∧ to_string m w = .ok s ∧
        to_string m u = .ok ((s.drop pos).take (exact_end w pos count - pos))) ∧
    ∀ w p0 c0 pos count, substr m v p0 c0 = .ok w → pos > w.size →
      substr m w pos count = .error .out_of_range := by
  refine ⟨?_, ?_, ?_⟩
  · obtain ⟨w, h1, h2, -, h4⟩ := substr_tail m v a hv (by omega)
    have hwsz : w.size = v.size - a := by
      rw [size_eq_content_length m w h2, h4, List.length_drop, size_eq_content_length m v hv]
    obtain ⟨u, g1, g2, -, g4⟩ := substr_tail m w b h2 (by omega)
    obtain ⟨u2, k1, k2, -, k4⟩ := substr_tail m v (a + b) hv hab
    refine ⟨w, u, u2, h1, g1, k1, ?_⟩
    rw [to_string_valid m u g2, to_string_valid m u2 k2, g4, h4, k4, List.drop_drop]
  · intro w p0 c0 pos count hw hpos hc
    obtain ⟨hwv, -⟩ := substr_valid m v w p0 c0 hv hw
    obtain ⟨u, h1, h2, -, h4⟩ := substr_ranks m w pos count hwv hpos hc
    exact ⟨u, content m w, h1, to_string_valid m w hwv, by rw [to_string_valid m u h2, h4]⟩
  · intro w p0 c0 pos count _ hpos
    exact substr_throws m w pos count hpos

/-- C19 (amended) at the view over "hello world" with `a = 3`, `b = 3`. -/
theorem C19_nested_substr_witness :
    (Valid demo_mem demo_hello ∧ 3 + 3 ≤ demo_hello.size) ∧
    ((∃ w u u2, substr demo_mem demo_hello 3 none = .ok w ∧ substr demo_mem w 3 none = .ok u ∧
      substr demo_mem demo_hello (3 + 3) none = .ok u2 ∧
      to_string demo_mem u = to_string demo_mem u2) ∧
    (∀ w p0 c0 pos count, substr demo_mem demo_hello p0 c0 = .ok w → pos ≤ w.size →
      (∀ c, count = some c → pos + c < SIZE_MOD) →
      ∃ u s, substr demo_mem w pos count = .ok u ∧ to_string demo_mem w = .ok s ∧
        to_string demo_mem u = .ok ((s.drop pos).take (exact_end w pos count - pos))) ∧
    ∀ w p0 c0 pos count, substr demo_mem demo_hello p0 c0 = .ok w → pos > w.size →
      substr demo_mem w pos count = .error .out_of_range) :=
  ⟨by decide, C19_nested_substr demo_mem demo_hello 3 3 (by decide) (by decide)⟩

/-! ## Joining the fragments of split -/

theorem gaps_ne_nil (s d : List Char) (x : Nat) (bs : List Nat) : gaps s d x bs ≠ [] := by
  cases bs <;> simp [gaps]

theorem join_with_cons (d g : List Char) (gs : List (List Char)) (h : gs ≠ []) :
    join_with d (g :: gs) = g ++ d ++ join_with d gs := by
  cases gs with
  | nil => exact absurd rfl h
  | cons y rest => rfl

theorem occurs_at_split (s d : List Char) (b : Nat) (h : occurs_at s d b) :
    s.drop b = d ++ s.drop (b + d.length) := by
  unfold occurs_at at h
  rw [List.isPrefixOf_iff_prefix] at h
  obtain ⟨t, ht⟩ := h
  have : s.drop (b + d.length) = t := by
    rw [← List.drop_drop, ← ht, List.drop_left]
  rw [this, ht]

theorem drop_split (s : List Char) (x b : Nat) (h : x ≤ b) :
    (s.drop x).take (b - x) ++ s.drop b = s.drop x := by
  have : s.drop b = (s.drop x).drop (b - x) := by
    rw [List.drop_drop, show x + (b - x) = b by omega]
  rw [this, List.take_append_drop]

/-- Joining the gaps of a scan with `d` gives back the string from the start of the scan. -/
theorem join_gaps (s d : List Char) (x : Nat) (bs : List Nat) (h : is_scan s d x bs) :
    join_with d (gaps s d x bs) = s.drop x := by
  induction bs generalizing x with
  | nil => rfl
  | cons b t ih =>
    obtain ⟨⟨h1, -, h3, -⟩, hrest⟩ := h
    simp only [gaps]
    rw [join_with_cons d _ _ (gaps_ne_nil s d _ t), ih _ hrest, List.append_assoc,
      ← occurs_at_split s d b h3, drop_split s x b h1]

/-- An occurrence of `d` inside a piece `s[x, x + n)` is an occurrence in `s`. -/
theorem infix_occurs (s d g : List Char) (x : Nat) (hg : g <+: s.drop x) (h : d <:+: g) :
    ∃ j, x ≤ j ∧ j + d.length ≤ x + g.length ∧ occurs_at s d j := by
  obtain ⟨pre, post, hpp⟩ := h
  obtain ⟨rest, hrest⟩ := hg
  refine ⟨x + pre.length, by omega, ?_, ?_⟩
  · rw [← hpp]
    simp only [List.length_append]
    omega
  · unfold occurs_at
    rw [List.isPrefixOf_iff_prefix, ← List.drop_drop, ← hrest, ← hpp]
    refine ⟨post ++ rest, ?_⟩
    simp [List.append_assoc]

/-- No gap of a scan contains an occurrence of `d`. -/
theorem gaps_free (s d : List Char) (hd : d ≠ []) (x : Nat) (bs : List Nat)
    (hx : x ≤ s.length) (h : is_scan s d x bs) : ∀ g ∈ gaps s d x bs, ¬ d <:+: g := by
  have hdpos : 0 < d.length := List.length_pos.2 hd
  induction bs generalizing x with
  | nil =>
    intro g hg hinf
    simp only [gaps, List.mem_singleton] at hg
    subst hg
    obtain ⟨j, hj1, hj2, hj3⟩ := infix_occurs s d _ x (List.prefix_refl _) hinf
    rw [List.length_drop] at hj2
    exact h j hj1 (by omega) hj3
  | cons b t ih =>
    obtain ⟨⟨h1, h2, -, h4⟩, hrest⟩ := h
    intro g hg hinf
    simp only [gaps, List.mem_cons] at hg
    cases hg with
    | inl hg =>
      subst hg
      obtain ⟨j, hj1, hj2, hj3⟩ := infix_occurs s d _ x (List.take_prefix _ _) hinf
      rw [List.length_take, List.length_drop] at hj2
      exact h4 j hj1 (by omega) hj3
    | inr hg => exact ih (b + d.length) h2 hrest g hg hinf

/-- The result of `split` on non-empty strings: the fragments along the scan. -/
theorem split_scan (m : Mem) (v tok : filtered_string_view)
    (hm : m.length < SIZE_MOD) (hv : Valid m v) (ht : Valid m tok)
    (hsne : content m v ≠ []) (hdne : content m tok ≠ []) :
    ∃ bs frags, is_scan (content m v) (content m tok) 0 bs ∧
      split m v tok = some (.ok frags) ∧
      frags.map (to_string m) = (gaps (content m v) (content m tok) 0 bs).map Except.ok := by
  obtain ⟨bs, hbs⟩ := is_scan_exists (content m v) (content m tok) hdne
    ((content m v).length + 1) 0 (by omega)
  have hb := is_scan_bound _ _ hdne 0 bs (Nat.zero_le _) hbs
  obtain ⟨frags, f1, f2, f3⟩ := split_loop_spec m v (content m tok) hm hv hdne bs 0
    ((content m v).length + 1) [] hbs (Nat.zero_le _) (by omega)
  refine ⟨bs, frags, hbs, ?_, ?_⟩
  · unfold split
    simp only [to_string_valid m v hv, to_string_valid m tok ht, hsne, hdne, or_self,
      if_false]
    simpa using f1
  · rw [← f2, List.map_map]
    apply List.map_congr_left
    intro w hw
    exact to_string_valid m w (f3 w hw).1

/-- C20: for a view and a delimiter view with non-empty materialized strings `s` and `d`,
`split` does not fail, joining the materialized fragments in order with `d` between
consecutive ones gives back `s`, and no fragment contains `d`.  Sizes are `std::size_t`
values, so memory is shorter than `2 ^ 64`. -/
theorem C20_split_join (m : Mem) (v tok : filtered_string_view) (s d : List Char)
    (hm : m.length < SIZE_MOD) (hv : Valid m v) (ht : Valid m tok)
    (hs : to_string m v = .ok s) (hd : to_string m tok = .ok d)
    (hsne : s ≠ []) (hdne : d ≠ []) :
    ∃ frags gs, split m v tok = some (.ok frags) ∧
      frags.map (to_string m) = gs.map Except.ok ∧
      join_with d gs = s ∧ ∀ g ∈ gs, ¬ d <:+: g := by
  rw [to_string_valid m v hv] at hs
  rw [to_string_valid m tok ht] at hd
  injection hs with hs
  injection hd with hd
  subst hs
  subst hd
  obtain ⟨bs, frags, h1, h2, h3⟩ := split_scan m v tok hm hv ht hsne hdne
  refine ⟨frags, gaps (content m v) (content m tok) 0 bs, h2, h3, ?_, ?_⟩
  · rw [join_gaps _ _ 0 bs h1, List.drop_zero]
  · exact gaps_free _ _ hdne 0 bs (Nat.zero_le _) h1

/-- C20 at the view over "c,a,t" split on ",". -/
theorem C20_split_join_witness :
    (demo_mem.length < SIZE_MOD ∧ Valid demo_mem demo_cat ∧ Valid demo_mem demo_comma ∧
      to_string demo_mem demo_cat = .ok "c,a,t".toList ∧
      to_string demo_mem demo_comma = .ok ",".toList ∧
      "c,a,t".toList ≠ [] ∧ ",".toList ≠ []) ∧
    ∃ frags gs, split demo_mem demo_cat demo_comma = some (.ok frags) ∧
      frags.map (to_string demo_mem) = gs.map Except.ok ∧
      join_with ",".toList gs = "c,a,t".toList ∧ ∀ g ∈ gs, ¬ ",".toList <:+: g :=
  ⟨by decide, C20_split_join demo_mem demo_cat demo_comma "c,a,t".toList ",".toList
    (by decide) (by decide) (by decide) (by decide) (by decide) (by decide) (by decide)⟩

/-! ## The views the claims range over -/

/-- A default-constructed view is valid. -/
theorem ctor_default_valid (m : Mem) : Valid m ctor_default := by
  simp [Valid, ctor_default, raw, hits]

/-- A moved-from view is valid. -/
theorem moved_from_valid (m : Mem) : Valid m ⟨none, 0, empty_function⟩ := by
  simp [Valid, raw, hits]

/-- The view left in the destination by a move is as valid as the source was. -/
theorem move_ctor_valid (m : Mem) (v : filtered_string_view) (hv : Valid m v) :
    Valid m (move_ctor v).1 := hv

end fsv
